import Mathlib

/-!
Verification development for a zip/unzip engine (Rust, `src/lib.rs`).

The program has two pipelines:
* `CompressTask::compute` (built from `zip(source_dir, output_path, options)`):
  walks a source directory with `walkdir`, filters entries against glob
  exclusion patterns, and streams file bytes into a zip container through a
  reusable 64 KiB buffer;
* `UncompressTask::compute` (built from `unzip(source_path, output_dir)`):
  iterates archive entries in stored order, resolves each stored name safely
  inside the output directory via `enclosed_name` (Zip-Slip defense), creates
  directories/files and restores Unix permission modes.

Modeling conventions of this shallow embedding:
* Filesystem paths are lists of name segments (`List String`); the textual
  form of a relative path joins segments with `/` (`pathChars`).  We model the
  Unix build (`cfg(windows)` branches are identity there, `cfg(unix)` branches
  are active, permission modes are `Option Nat`).
* Stored archive entry names are kept as the segment lists produced by
  splitting the raw name string at `/`; a raw name ending in `/` corresponds
  to a trailing `""` segment, a raw absolute name to a leading `""` segment.
* The filesystem that extraction mutates is an association list from absolute
  resolved paths to nodes; creating a file prepends a binding (overwrite
  semantics of `File::create`), `create_dir_all` adds missing prefixes only,
  `set_permissions` updates the mode at a path.
* I/O fault injection (disk errors, unreadable files mid-stream) is not
  modeled: reads of walked files yield the contents recorded in the walk
  snapshot.  Walk errors of `walkdir` are modeled as `none` elements of the
  walk result list, which the code drops via `filter_map(|e| e.ok())`.
* The `glob` crate's `Pattern::new` / `Pattern::matches` and the `zip`
  crate's `enclosed_name` are external dependencies of the program; they are
  embedded faithfully from their published algorithms (default match options:
  case sensitive, no literal-separator or literal-leading-dot requirement).
  Recursion of the matcher is expressed with a fuel parameter that strictly
  exceeds the maximal recursion depth of the original algorithm, keeping the
  definitions kernel-computable.
-/

/-! ## The glob crate: patterns -/

/-- A character specifier inside a `[...]` character class. -/
inductive CharSpecifier where
  | singleChar (c : Char)
  | charRange (lo hi : Char)
deriving DecidableEq

/-- Tokens of a compiled glob pattern (the glob crate's `PatternToken`). -/
inductive PatToken where
  | char (c : Char)
  | anyChar
  | anySequence
  | anyRecursiveSequence
  | anyWithin (cs : List CharSpecifier)
  | anyExcept (cs : List CharSpecifier)
deriving DecidableEq

/-- The glob crate's `parse_char_specifiers`: a `-` with a character on both
sides makes a range, anything else is a single character. -/
def parseCharSpecifiers : List Char → List CharSpecifier
  | a :: '-' :: b :: rest => .charRange a b :: parseCharSpecifiers rest
  | a :: rest => .singleChar a :: parseCharSpecifiers rest
  | [] => []

/-- Number of leading `*` characters. -/
def starCount : List Char → Nat
  | '*' :: rest => starCount rest + 1
  | _ => 0

/-- Push an `AnyRecursiveSequence` token, collapsing consecutive recursive
wildcards exactly as the glob crate does (its guard checks `tokens_len > 1`).
The accumulator is kept reversed, so the most recent token is its head. -/
def pushRecursive (acc : List PatToken) : List PatToken :=
  if 1 < acc.length ∧ acc.head? = some PatToken.anyRecursiveSequence then acc
  else PatToken.anyRecursiveSequence :: acc

/-- The glob crate's `Pattern::new` parser loop.  `prev` is the character just
before the current position (`none` at the start), `acc` the reversed token
list.  Returns `none` on the crate's `PatternError` (too many wildcards, a
recursive wildcard that is not a whole path component, an invalid range).
The fuel strictly bounds the number of loop iterations (each iteration
consumes at least one input character). -/
def parseAux : Nat → List Char → Option Char → List PatToken → Option (List PatToken)
  | 0, _, _, _ => none
  | _ + 1, [], _, acc => some acc.reverse
  | fuel + 1, '?' :: rest, _, acc => parseAux fuel rest (some '?') (.anyChar :: acc)
  | fuel + 1, '*' :: rest, prev, acc =>
      let extra := starCount rest
      let rem := rest.drop extra
      if 2 < extra + 1 then none
      else if extra + 1 = 2 then
        if prev = none ∨ prev = some '/' then
          match rem with
          | '/' :: rem2 => parseAux fuel rem2 (some '/') (pushRecursive acc)
          | [] => parseAux fuel [] (some '*') (pushRecursive acc)
          | _ => none
        else none
      else parseAux fuel rest (some '*') (.anySequence :: acc)
  | fuel + 1, '[' :: rest, _, acc =>
      match rest with
      | '!' :: after =>
        if 2 ≤ after.length then
          match after.tail.findIdx? (fun c => c = ']') with
          | some j =>
              parseAux fuel (after.drop (j + 2)) (some ']')
                (.anyExcept (parseCharSpecifiers (after.take (j + 1))) :: acc)
          | none => none
        else none
      | _ =>
        if 2 ≤ rest.length then
          match rest.tail.findIdx? (fun c => c = ']') with
          | some j =>
              parseAux fuel (rest.drop (j + 2)) (some ']')
                (.anyWithin (parseCharSpecifiers (rest.take (j + 1))) :: acc)
          | none => none
        else none
  | fuel + 1, c :: rest, _, acc => parseAux fuel rest (some c) (.char c :: acc)

/-- A compiled glob pattern. -/
structure Pattern where
  tokens : List PatToken
deriving DecidableEq

/-- The glob crate's `Pattern::new`, as used by the program through
`Pattern::new(p).ok()`: `none` models a compilation error. -/
def Pattern.new (s : String) : Option Pattern :=
  (parseAux (s.data.length + 1) s.data none []).map Pattern.mk

/-- The glob crate's `in_char_specifiers` with the default (case sensitive)
match options. -/
def inCharSpecifiers (cs : List CharSpecifier) (c : Char) : Bool :=
  cs.any fun s =>
    match s with
    | .singleChar sc => sc = c
    | .charRange lo hi => decide (lo ≤ c ∧ c ≤ hi)

/-- Whether a non-wildcard token matches one character (default match options,
so the literal-separator and literal-leading-dot guards are inactive). -/
def tokenMatchesChar : PatToken → Char → Bool
  | .char c2, c => c = c2
  | .anyChar, _ => true
  | .anyWithin cs, c => inCharSpecifiers cs c
  | .anyExcept cs, c => !inCharSpecifiers cs c
  | _, _ => false

/-- The glob crate's three-valued match result. -/
inductive MatchResult where
  | isMatch
  | subPatternDoesntMatch
  | entirePatternDoesntMatch
deriving DecidableEq

/-- The glob crate's `Pattern::matches_from` together with its inner `while`
loop over the file characters.  `mode = none` is the main token loop;
`mode = some isRec` is the character-consuming loop of a `*` (`isRec = false`)
or `**` (`isRec = true`) wildcard.  `fs` is `follows_separator`.  When the
character loop exhausts the input it falls through to the remaining tokens,
exactly as the Rust `for` loop does.  The fuel strictly bounds the recursion
depth of the original algorithm (see `Pattern.matches`). -/
def matchLoop : Nat → Option Bool → Bool → List PatToken → List Char → MatchResult
  | 0, _, _, _, _ => .entirePatternDoesntMatch
  | _ + 1, none, _, [], file => if file = [] then .isMatch else .subPatternDoesntMatch
  | fuel + 1, none, fs, .anySequence :: rest, file =>
      (match matchLoop fuel none fs rest file with
       | .subPatternDoesntMatch => matchLoop fuel (some false) fs rest file
       | m => m)
  | fuel + 1, none, fs, .anyRecursiveSequence :: rest, file =>
      if fs then
        match matchLoop fuel none fs rest file with
        | .subPatternDoesntMatch => matchLoop fuel (some true) fs rest file
        | m => m
      else .subPatternDoesntMatch
  | fuel + 1, none, _, tok :: rest, file =>
      (match file with
       | [] => .entirePatternDoesntMatch
       | c :: cs =>
          if tokenMatchesChar tok c then matchLoop fuel none (c = '/') rest cs
          else .subPatternDoesntMatch)
  | fuel + 1, some _, fs, rest, [] => matchLoop fuel none fs rest []
  | fuel + 1, some isRec, _, rest, c :: cs =>
      if isRec = true ∧ ¬c = '/' then matchLoop fuel (some isRec) (c = '/') rest cs
      else
        match matchLoop fuel none (c = '/') rest cs with
        | .subPatternDoesntMatch => matchLoop fuel (some isRec) (c = '/') rest cs
        | m => m

/-- The glob crate's `Pattern::matches` (default match options), on the list
of characters of the candidate string.  The fuel `2 * (tokens + file) + 2`
strictly exceeds the recursion depth of `matches_from`: every recursive step
lowers the measure `2 * (remaining file + remaining tokens) + phase`. -/
def Pattern.matches (p : Pattern) (file : List Char) : Bool :=
  matchLoop (2 * (p.tokens.length + file.length) + 2) none true p.tokens file = .isMatch

/-! ## Paths and walk entries -/

/-- The character list of the `/`-joined relative path, i.e. the `name_str`
the program computes for a walk entry (on Unix no separator replacement
happens). -/
def pathChars : List String → List Char
  | [] => []
  | [s] => s.data
  | s :: rest => s.data ++ '/' :: pathChars rest

/-- A well-formed filesystem name segment: what a real directory entry name
can be (never empty, never `.` or `..`, no `/`, no NUL byte). -/
def GoodSeg (s : String) : Prop :=
  s ≠ "" ∧ s ≠ "." ∧ s ≠ ".." ∧ '/' ∉ s.data ∧ Char.ofNat 0 ∉ s.data

instance (s : String) : Decidable (GoodSeg s) := by
  unfold GoodSeg; infer_instance

/-- One entry yielded by the `walkdir` traversal, relative to `source_dir`:
its relative path in segments (empty for the traversal root), whether it is a
regular file, its byte content (files only) and its Unix permission mode when
the platform provides one. -/
structure WalkEntry where
  rel : List String
  isFile : Bool
  content : List Nat
  mode : Option Nat
deriving DecidableEq

/-- A directory tree under the traversal root: a listing whose entries are
files or subdirectories (each with its own listing). -/
inductive FSDir where
  | nil : FSDir
  | file (name : String) (content : List Nat) (mode : Option Nat) (rest : FSDir)
  | dir (name : String) (mode : Option Nat) (children : FSDir) (rest : FSDir)

/-- Names of the immediate entries of a listing. -/
def namesOf : FSDir → List String
  | .nil => []
  | .file n _ _ rest => n :: namesOf rest
  | .dir n _ _ rest => n :: namesOf rest

/-- Well-formedness of a listing as a filesystem snapshot: every name is a
real directory entry name and siblings have distinct names. -/
def wfDir : FSDir → Bool
  | .nil => true
  | .file n _ _ rest => decide (GoodSeg n) && decide (n ∉ namesOf rest) && wfDir rest
  | .dir n _ ch rest => decide (GoodSeg n) && decide (n ∉ namesOf rest) && wfDir ch && wfDir rest

/-- Depth-first enumeration of a listing, as `WalkDir` yields it: each entry
before its contents. -/
def walkDir (pre : List String) : FSDir → List WalkEntry
  | .nil => []
  | .file n c m rest => ⟨pre ++ [n], true, c, m⟩ :: walkDir pre rest
  | .dir n m ch rest =>
      ⟨pre ++ [n], false, [], m⟩ :: (walkDir (pre ++ [n]) ch ++ walkDir pre rest)

/-- The full walk of a source directory: `WalkDir::new(source_dir)` yields the
root itself first (relative path empty), then its contents. -/
def walkRoot (d : FSDir) : List WalkEntry :=
  ⟨[], false, [], none⟩ :: walkDir [] d

/-- The walk results fed to the compress loop: `walkdir` yields `Result`
values and a missing or unreadable root yields a single error item, which
`filter_map(|e| e.ok())` silently drops. -/
def walkOf : Option FSDir → List (Option WalkEntry)
  | none => [none]
  | some d => (walkRoot d).map some

/-! ## CompressTask -/

/-- The `ZipOptions` object (`level: Option<i32>`, `exclude: Option<Vec<String>>`). -/
structure ZipOptions where
  level : Option Int
  exclude : Option (List String)
deriving DecidableEq

/-- One entry of the produced/consumed archive.  `segs` is the stored name
split at `/` (a directory marker name carries a trailing `""` segment for its
trailing slash); `isDir` records whether it was written via `add_directory`. -/
structure ArchiveEntry where
  segs : List String
  isDir : Bool
  content : List Nat
  mode : Option Nat
deriving DecidableEq

/-- The chunks successively returned by `f.read(&mut buffer)` for a 64 KiB
buffer on the happy path: maximal reads until end of file.  The fuel (the
content length) strictly bounds the number of non-empty reads. -/
def readChunksF : Nat → List Nat → List (List Nat)
  | 0, _ => []
  | _, [] => []
  | f + 1, c => c.take 65536 :: readChunksF f (c.drop 65536)

/-- All chunks read from a file's content. -/
def readChunks (c : List Nat) : List (List Nat) := readChunksF c.length c

/-- The streaming copy loop: the reusable buffer `buf` is overwritten in
place by each read (`ck ++ buf.drop ck.length`), and only `&buffer[..count]`
is written out.  Returns the bytes written and the final buffer state. -/
def streamChunks (buf : List Nat) (cks : List (List Nat)) : List Nat × List Nat :=
  cks.foldl
    (fun acc ck =>
      let buf2 := ck ++ acc.2.drop ck.length
      (acc.1 ++ buf2.take ck.length, buf2))
    ([], buf)

/-- Compiling the exclusion patterns:
`options.exclude.as_ref().map(|ps| ps.iter().filter_map(|p| Pattern::new(p).ok()).collect()).unwrap_or_default()`. -/
def compileExcludes (exclude : Option (List String)) : List Pattern :=
  (exclude.map (List.filterMap Pattern.new)).getD []

/-- The per-entry exclusion test (the `for`/`break` loop over the patterns). -/
def excludedBy (pats : List Pattern) (name : List Char) : Bool :=
  pats.any fun p => p.matches name

/-- One iteration of the compress loop, acting on the accumulated archive,
the emitted-file counter and the reusable read buffer. -/
def compressFold (pats : List Pattern) (st : List ArchiveEntry × Nat × List Nat)
    (e : WalkEntry) : List ArchiveEntry × Nat × List Nat :=
  let name := pathChars e.rel
  if excludedBy pats name then st
  else if e.isFile then
    let res := streamChunks st.2.2 (readChunks e.content)
    (st.1 ++ [⟨e.rel, false, res.1, e.mode⟩], st.2.1 + 1, res.2)
  else if name ≠ [] then
    (st.1 ++ [⟨e.rel ++ [""], true, [], e.mode⟩], st.2.1, st.2.2)
  else st

/-- `CompressTask::compute` on the happy I/O path: create the output archive,
compile the exclusion patterns, fold the walk results (dropping walk errors)
through the per-entry logic, finish the container.  Returns the archive
content and the emitted-file count. -/
def compressCompute (walkResults : List (Option WalkEntry)) (opts : ZipOptions) :
    List ArchiveEntry × Nat :=
  let pats := compileExcludes opts.exclude
  let res := (walkResults.filterMap id).foldl (compressFold pats) ([], 0, List.replicate 65536 0)
  (res.1, res.2.1)

/-- The `zip` entry point together with the execution of the task it
constructs.  The level check happens in `zip` itself, before the task exists;
`File::create(output_path)` is the first action of `CompressTask::compute`.
The boolean records whether that `File::create` was reached (i.e. whether any
file appears at `output_path`). -/
def zipPipeline (walkResults : List (Option WalkEntry)) (options : Option ZipOptions) :
    Except String (List ArchiveEntry × Nat) × Bool :=
  let opts := options.getD ⟨some 1, none⟩
  let lvl := opts.level.getD 1
  if 0 ≤ lvl ∧ lvl ≤ 9 then (.ok (compressCompute walkResults opts), true)
  else (.error "Compression level must be between 0 and 9", false)

/-! ## UncompressTask -/

/-- A filesystem node: a directory or a regular file with its byte content,
each carrying an optional Unix permission mode. -/
inductive Node where
  | dirNode (mode : Option Nat)
  | fileNode (content : List Nat) (mode : Option Nat)
deriving DecidableEq

/-- The filesystem state extraction mutates: an association list from
absolute resolved paths (in segments) to nodes; the most recent binding for a
path shadows older ones. -/
abbrev FS := List (List String × Node)

/-- Look up the node currently at a path. -/
def lookupFS (p : List String) : FS → Option Node
  | [] => none
  | (q, n) :: rest => if p = q then some n else lookupFS p rest

/-- Apply a permission mode to a node (`set_permissions`). -/
def Node.withMode (m : Nat) : Node → Node
  | .dirNode _ => .dirNode (some m)
  | .fileNode c _ => .fileNode c (some m)

/-- A node with its permission mode forgotten (used to state that extraction
steps may change at most the mode of an existing node). -/
def Node.core : Node → Node
  | .dirNode _ => .dirNode none
  | .fileNode c _ => .fileNode c none

/-- `std::fs::set_permissions(path, mode)`: updates the mode of whatever is
bound at the path (a no-op on paths that do not exist). -/
def setPermissions (fs : FS) (p : List String) (m : Nat) : FS :=
  fs.map fun en => if en.1 = p then (en.1, en.2.withMode m) else en

/-- Create directories at the given paths, skipping those that already
exist. -/
def mkDirsList (fs : FS) : List (List String) → FS
  | [] => fs
  | q :: qs => mkDirsList (if lookupFS q fs = none then (q, Node.dirNode none) :: fs else fs) qs

/-- `std::fs::create_dir_all(p)`: create the directory and every missing
ancestor. -/
def createDirAll (fs : FS) (p : List String) : FS := mkDirsList fs p.inits

/-- `File::create` followed by `io::copy` of the entry's decompressed bytes:
creates or truncates the file at the path (default permissions). -/
def setFile (fs : FS) (p : List String) (c : List Nat) : FS :=
  (p, Node.fileNode c none) :: fs

/-- Whether a stored name contains a NUL character. -/
def hasNul (s : String) : Bool := decide (Char.ofNat 0 ∈ s.data)

/-- The normal components of a stored name: `Path::components` collapses
empty segments (repeated or trailing separators) and `.` segments. -/
def compsOf (segs : List String) : List String :=
  segs.filter fun s => decide (s ≠ "" ∧ s ≠ ".")

/-- The depth loop of the zip crate's `enclosed_name`: parent-directory
components pop with `checked_sub`, normal components push; a pop at depth
zero rejects the name. -/
def depthCheck : Nat → List String → Bool
  | _, [] => true
  | d, c :: rest =>
      if c = ".." then
        match d with
        | 0 => false
        | d' + 1 => depthCheck d' rest
      else depthCheck (d + 1) rest

/-- The zip crate's `ZipFile::enclosed_name`: rejects names containing NUL,
absolute names (a leading separator, i.e. a leading `""` segment of a
non-trivial split) and names whose `..` components would escape; otherwise
returns the name unchanged. -/
def enclosedName (segs : List String) : Option (List String) :=
  if segs.any hasNul then none
  else if 2 ≤ segs.length ∧ segs.head? = some "" then none
  else if depthCheck 0 (compsOf segs) then some segs else none

/-- Whether the raw stored name ends with `/` (`file.name().ends_with('/')`):
in split form, a trailing `""` segment of a non-trivial split. -/
def endsWithSlash (segs : List String) : Bool :=
  decide (2 ≤ segs.length ∧ segs.getLast? = some "")

/-- Resolution of the `..`/normal components against the filesystem (no
symlinks): `..` drops the last segment, a normal component appends. -/
def resolveRel (comps : List String) : List String :=
  comps.foldl (fun acc c => if c = ".." then acc.dropLast else acc ++ [c]) []

/-- Restoring the stored Unix permission mode on the created path, when the
entry carries one (`file.unix_mode()`). -/
def applyMode (fs : FS) (out : List String) : Option Nat → FS
  | some m => setPermissions fs out m
  | none => fs

/-- Processing of one archive entry by `UncompressTask::compute`: skip the
entry if `enclosed_name` rejects its stored name; otherwise the target is
`output_dir.join(name)`.  A directory marker gets `create_dir_all`; a file
entry first gets `create_dir_all` on its parent when the parent does not
exist, then is created and filled; finally a stored Unix mode, when present,
is applied to the target. -/
def extractEntry (outDir : List String) (fs : FS) (a : ArchiveEntry) : FS :=
  match enclosedName a.segs with
  | none => fs
  | some segs =>
    let out := outDir ++ resolveRel (compsOf segs)
    let fs1 :=
      if endsWithSlash segs then createDirAll fs out
      else
        let fs0 := if lookupFS out.dropLast fs = none then createDirAll fs out.dropLast else fs
        setFile fs0 out a.content
    applyMode fs1 out a.mode

/-- `UncompressTask::compute` on the happy I/O path: iterate the entries in
stored order over the filesystem state. -/
def uncompressCompute (outDir : List String) (archive : List ArchiveEntry) (fs : FS) : FS :=
  archive.foldl (extractEntry outDir) fs

/-- The resolved path at which an entry creates a regular file, if any
(directory markers and entries skipped by `enclosed_name` create none). -/
def fileTargetOf (outDir : List String) (a : ArchiveEntry) : Option (List String) :=
  match enclosedName a.segs with
  | none => none
  | some segs =>
      if endsWithSlash segs then none
      else some (outDir ++ resolveRel (compsOf segs))

/-! ## Specification-side descriptions of the compress loop -/

/-- The archive entry the compress loop emits for one walk entry: nothing
when an exclusion pattern matches the relative name or the entry is the
traversal root; a file record for a file; a trailing-slash directory marker
for a directory with a non-empty name. -/
def archSpec (pats : List Pattern) (e : WalkEntry) : Option ArchiveEntry :=
  if excludedBy pats (pathChars e.rel) then none
  else if e.isFile then some ⟨e.rel, false, e.content, e.mode⟩
  else if pathChars e.rel ≠ [] then some ⟨e.rel ++ [""], true, [], e.mode⟩
  else none

/-- Whether a walk entry increments the emitted-file counter. -/
def countsAsFile (pats : List Pattern) (e : WalkEntry) : Bool :=
  !excludedBy pats (pathChars e.rel) && e.isFile

/-- No regular file is currently at the path. -/
def NoFileAt (fs : FS) (p : List String) : Prop :=
  ∀ c m, lookupFS p fs ≠ some (Node.fileNode c m)

/-! ## Concrete fixtures -/

/-- A tree with three files and two subdirectories. -/
def treeThreeTwo : FSDir :=
  .file "f1" [1] none
    (.dir "sub1" none (.file "f2" [2] none .nil)
      (.dir "sub2" none (.file "f3" [3] none .nil) .nil))

/-- A tree with `a.tmp` and `a.txt` at the root. -/
def treeTmp : FSDir := .file "a.tmp" [1] none (.file "a.txt" [2] none .nil)

/-- A directory `d` containing a file `f`. -/
def treeNested : FSDir := .dir "d" none (.file "f" [5] none .nil) .nil

/-- A large file processed before a small one: stale bytes of `big` sit in
the reused buffer while `tiny` is streamed. -/
def treeStale : FSDir := .file "big" [1, 2, 3] none (.file "tiny" [9] none .nil)

/-- An empty subdirectory next to a file, for the round-trip witness. -/
def treeRound : FSDir := .dir "sub" none .nil (.file "a.txt" [7] none .nil)

/-- A hand-crafted archive whose single entry is named `../../evil`. -/
def evilArchive : List ArchiveEntry := [⟨["..", "..", "evil"], false, [7], none⟩]

/-- A filesystem in which only the root directory exists. -/
def demoFS : FS := [([], Node.dirNode none)]

/-! ## Streaming lemmas -/

theorem take_len_append {α : Type} (l r : List α) : (l ++ r).take l.length = l := by
  induction l with
  | nil => simp
  | cons a t ih => simp [ih]

theorem readChunksF_flatten :
    ∀ (f : Nat) (c : List Nat), c.length ≤ f → (readChunksF f c).flatten = c := by
  intro f
  induction f with
  | zero =>
      intro c hc
      have : c = [] := List.length_eq_zero.mp (Nat.le_zero.mp hc)
      subst this; simp [readChunksF]
  | succ f ih =>
      intro c hc
      cases c with
      | nil => simp [readChunksF]
      | cons x xs =>
          have hlen : (List.drop 65536 (x :: xs)).length ≤ f := by
            simp only [List.length_drop]
            have hc' : (x :: xs).length ≤ f + 1 := hc
            simp only [List.length_cons] at hc'
            omega
          simp only [readChunksF, List.flatten]
          rw [ih _ hlen, List.take_append_drop]

theorem readChunks_flatten (c : List Nat) : (readChunks c).flatten = c :=
  readChunksF_flatten c.length c (Nat.le_refl _)

theorem streamChunks_fst_aux :
    ∀ (cks : List (List Nat)) (w b : List Nat),
    (cks.foldl
      (fun acc ck =>
        let buf2 := ck ++ acc.2.drop ck.length
        (acc.1 ++ buf2.take ck.length, buf2))
      (w, b)).1 = w ++ cks.flatten := by
  intro cks
  induction cks with
  | nil => intro w b; simp
  | cons ck t ih =>
      intro w b
      simp only [List.foldl_cons, List.flatten]
      rw [take_len_append, ih]
      simp [List.append_assoc]

theorem streamChunks_fst (buf : List Nat) (cks : List (List Nat)) :
    (streamChunks buf cks).1 = cks.flatten := by
  simpa [streamChunks] using streamChunks_fst_aux cks [] buf

/-! ## Characterization of the compress loop -/

theorem compressFold_step (pats : List Pattern) (acc : List ArchiveEntry) (cnt : Nat)
    (buf : List Nat) (e : WalkEntry) :
    ∃ buf', compressFold pats (acc, cnt, buf) e =
      (acc ++ (archSpec pats e).toList,
       cnt + (if countsAsFile pats e then 1 else 0), buf') := by
  by_cases hex : excludedBy pats (pathChars e.rel) = true
  · exact ⟨buf, by simp [compressFold, archSpec, countsAsFile, hex]⟩
  · by_cases hf : e.isFile = true
    · refine ⟨(streamChunks buf (readChunks e.content)).2, ?_⟩
      have hcontent : (streamChunks buf (readChunks e.content)).1 = e.content := by
        rw [streamChunks_fst, readChunks_flatten]
      simp [compressFold, archSpec, countsAsFile, hex, hf, hcontent]
    · by_cases hne : pathChars e.rel = []
      · exact ⟨buf, by simp [compressFold, archSpec, countsAsFile, hex, hf, hne]⟩
      · exact ⟨buf, by simp [compressFold, archSpec, countsAsFile, hex, hf, hne]⟩

theorem compressFold_spec (pats : List Pattern) :
    ∀ (ws : List WalkEntry) (acc : List ArchiveEntry) (cnt : Nat) (buf : List Nat),
    (ws.foldl (compressFold pats) (acc, cnt, buf)).1 = acc ++ ws.filterMap (archSpec pats) ∧
    (ws.foldl (compressFold pats) (acc, cnt, buf)).2.1 =
      cnt + (ws.filter (countsAsFile pats)).length := by
  intro ws
  induction ws with
  | nil => intro acc cnt buf; simp
  | cons e t ih =>
      intro acc cnt buf
      obtain ⟨buf', hstep⟩ := compressFold_step pats acc cnt buf e
      simp only [List.foldl_cons, hstep]
      obtain ⟨h1, h2⟩ := ih (acc ++ (archSpec pats e).toList)
        (cnt + (if countsAsFile pats e then 1 else 0)) buf'
      constructor
      · rw [h1, List.filterMap_cons]
        cases harch : archSpec pats e <;> simp [harch, List.append_assoc]
      · rw [h2, List.filter_cons]
        by_cases hcount : countsAsFile pats e = true <;> simp [hcount] <;> omega

theorem compressCompute_spec (walkResults : List (Option WalkEntry)) (opts : ZipOptions) :
    compressCompute walkResults opts =
      ((walkResults.filterMap id).filterMap (archSpec (compileExcludes opts.exclude)),
       ((walkResults.filterMap id).filter (countsAsFile (compileExcludes opts.exclude))).length) := by
  obtain ⟨h1, h2⟩ :=
    compressFold_spec (compileExcludes opts.exclude) (walkResults.filterMap id) [] 0
      (List.replicate 65536 0)
  unfold compressCompute
  simp only [Prod.mk.injEq]
  refine ⟨?_, ?_⟩
  · rw [h1]; exact List.nil_append _
  · rw [h2]; exact Nat.zero_add _

/-! ## Filesystem-state lemmas -/

theorem core_withMode (m : Nat) (n : Node) : (n.withMode m).core = n.core := by
  cases n <;> rfl

theorem lookup_setFile (fs : FS) (p q : List String) (c : List Nat) :
    lookupFS q (setFile fs p c) =
      if q = p then some (Node.fileNode c none) else lookupFS q fs := rfl

theorem lookup_setPermissions (fs : FS) (p q : List String) (m : Nat) :
    lookupFS q (setPermissions fs p m) =
      if q = p then (lookupFS q fs).map (Node.withMode m) else lookupFS q fs := by
  induction fs with
  | nil =>
      simp only [setPermissions, List.map_nil, lookupFS]
      split <;> rfl
  | cons en t ih =>
      obtain ⟨r, n⟩ := en
      have hstep : setPermissions ((r, n) :: t) p m =
          (if r = p then (r, Node.withMode m n) else (r, n)) :: setPermissions t p m := rfl
      rw [hstep]
      by_cases hrp : r = p
      · rw [if_pos hrp]
        by_cases hqr : q = r
        · have h1 : lookupFS q ((r, Node.withMode m n) :: setPermissions t p m) =
              some (Node.withMode m n) := by simp [lookupFS, hqr]
          have h2 : lookupFS q ((r, n) :: t) = some n := by simp [lookupFS, hqr]
          rw [h1, h2, if_pos (hqr.trans hrp)]
          rfl
        · have h1 : lookupFS q ((r, Node.withMode m n) :: setPermissions t p m) =
              lookupFS q (setPermissions t p m) := by simp [lookupFS, hqr]
          have h2 : lookupFS q ((r, n) :: t) = lookupFS q t := by simp [lookupFS, hqr]
          rw [h1, h2]
          exact ih
      · rw [if_neg hrp]
        by_cases hqr : q = r
        · have hqp : ¬q = p := fun h => hrp (by rw [← hqr]; exact h)
          have h1 : lookupFS q ((r, n) :: setPermissions t p m) = some n := by
            simp [lookupFS, hqr]
          have h2 : lookupFS q ((r, n) :: t) = some n := by simp [lookupFS, hqr]
          rw [h1, h2, if_neg hqp]
        · have h1 : lookupFS q ((r, n) :: setPermissions t p m) =
              lookupFS q (setPermissions t p m) := by simp [lookupFS, hqr]
          have h2 : lookupFS q ((r, n) :: t) = lookupFS q t := by simp [lookupFS, hqr]
          rw [h1, h2]
          exact ih

theorem lookup_mkDirsList_some :
    ∀ (qs : List (List String)) (fs : FS) (p : List String) (n : Node),
    lookupFS p fs = some n → lookupFS p (mkDirsList fs qs) = some n := by
  intro qs
  induction qs with
  | nil => intro fs p n h; simpa [mkDirsList] using h
  | cons q t ih =>
      intro fs p n h
      simp only [mkDirsList]
      by_cases hq : lookupFS q fs = none
      · rw [if_pos hq]
        apply ih
        have hpq : ¬p = q := by
          intro hh
          rw [hh] at h
          rw [h] at hq
          cases hq
        simpa [lookupFS, hpq] using h
      · rw [if_neg hq]
        exact ih fs p n h

theorem lookup_mkDirsList_cases :
    ∀ (qs : List (List String)) (fs : FS) (p : List String),
    lookupFS p (mkDirsList fs qs) = lookupFS p fs ∨
      (p ∈ qs ∧ lookupFS p (mkDirsList fs qs) = some (Node.dirNode none)) := by
  intro qs
  induction qs with
  | nil => intro fs p; left; rfl
  | cons q t ih =>
      intro fs p
      simp only [mkDirsList]
      by_cases hq : lookupFS q fs = none
      · rw [if_pos hq]
        rcases ih ((q, Node.dirNode none) :: fs) p with h | ⟨hmem, h⟩
        · by_cases hpq : p = q
          · subst hpq
            right
            refine ⟨List.mem_cons_self _ _, ?_⟩
            rw [h]
            simp [lookupFS]
          · left
            rw [h]
            simp [lookupFS, hpq]
        · right
          exact ⟨List.mem_cons_of_mem _ hmem, h⟩
      · rw [if_neg hq]
        rcases ih fs p with h | ⟨hmem, h⟩
        · left; exact h
        · right; exact ⟨List.mem_cons_of_mem _ hmem, h⟩

theorem lookup_mkDirsList_mem :
    ∀ (qs : List (List String)) (fs : FS) (p : List String),
    p ∈ qs → lookupFS p (mkDirsList fs qs) ≠ none := by
  intro qs
  induction qs with
  | nil => intro fs p h; cases h
  | cons q t ih =>
      intro fs p hmem
      simp only [mkDirsList]
      by_cases hpt : p ∈ t
      · exact ih _ p hpt
      · have hpq : p = q := by
          rcases List.mem_cons.mp hmem with h | h
          · exact h
          · exact absurd h hpt
        subst hpq
        by_cases hq : lookupFS p fs = none
        · rw [if_pos hq]
          have hcons : lookupFS p ((p, Node.dirNode none) :: fs) = some (Node.dirNode none) := by
            simp [lookupFS]
          rw [lookup_mkDirsList_some t _ p _ hcons]
          simp
        · rw [if_neg hq]
          obtain ⟨n, hn⟩ := Option.ne_none_iff_exists'.mp hq
          rw [lookup_mkDirsList_some t fs p n hn]
          simp

/-! ## Path order helpers -/

theorem dropLast_front {α : Type} (l : List α) : l.dropLast <+: l := by
  induction l with
  | nil => exact ⟨[], rfl⟩
  | cons a t ih =>
      cases t with
      | nil => exact ⟨[a], rfl⟩
      | cons b t2 =>
          obtain ⟨s, hs⟩ := ih
          exact ⟨s, by simpa [List.dropLast] using congrArg (a :: ·) hs⟩

theorem front_total {α : Type} {a b c : List α} (h1 : a <+: c) (h2 : b <+: c) :
    a <+: b ∨ b <+: a :=
  List.prefix_or_prefix_of_prefix h1 h2

/-! ## Per-entry extraction lemmas -/

theorem lookup_applyMode_ne (fs : FS) (out q : List String) (mo : Option Nat)
    (hq : ¬q = out) : lookupFS q (applyMode fs out mo) = lookupFS q fs := by
  cases mo with
  | none => rfl
  | some m => rw [applyMode, lookup_setPermissions, if_neg hq]

theorem lookup_applyMode_core (fs : FS) (out q : List String) (mo : Option Nat) :
    (lookupFS q (applyMode fs out mo)).map Node.core = (lookupFS q fs).map Node.core := by
  cases mo with
  | none => rfl
  | some m =>
      rw [applyMode, lookup_setPermissions]
      by_cases hq : q = out
      · rw [if_pos hq]
        cases lookupFS q fs with
        | none => rfl
        | some n => simp [core_withMode]
      · rw [if_neg hq]

theorem applyMode_ne_none (fs : FS) (out q : List String) (mo : Option Nat)
    (h : lookupFS q fs ≠ none) : lookupFS q (applyMode fs out mo) ≠ none := by
  intro hcon
  apply h
  have := lookup_applyMode_core fs out q mo
  rw [hcon] at this
  cases hl : lookupFS q fs with
  | none => rfl
  | some n => rw [hl] at this; cases this

theorem extractEntry_skip (outDir : List String) (fs : FS) (a : ArchiveEntry)
    (h : enclosedName a.segs = none) : extractEntry outDir fs a = fs := by
  simp [extractEntry, h]

theorem extractEntry_dir_eq (outDir : List String) (fs : FS) (a : ArchiveEntry)
    (segs : List String) (h : enclosedName a.segs = some segs)
    (hsl : endsWithSlash segs = true) :
    extractEntry outDir fs a =
      applyMode (createDirAll fs (outDir ++ resolveRel (compsOf segs)))
        (outDir ++ resolveRel (compsOf segs)) a.mode := by
  simp [extractEntry, h, hsl]

theorem extractEntry_file_eq (outDir : List String) (fs : FS) (a : ArchiveEntry)
    (segs : List String) (h : enclosedName a.segs = some segs)
    (hsl : endsWithSlash segs = false) :
    extractEntry outDir fs a =
      applyMode
        (setFile
          (if lookupFS (outDir ++ resolveRel (compsOf segs)).dropLast fs = none
           then createDirAll fs (outDir ++ resolveRel (compsOf segs)).dropLast
           else fs)
          (outDir ++ resolveRel (compsOf segs)) a.content)
        (outDir ++ resolveRel (compsOf segs)) a.mode := by
  simp [extractEntry, h, hsl]


theorem extractEntry_ne_none (outDir : List String) (fs : FS) (a : ArchiveEntry)
    (q : List String) (h : lookupFS q fs ≠ none) :
    lookupFS q (extractEntry outDir fs a) ≠ none := by
  obtain ⟨n, hn⟩ := Option.ne_none_iff_exists'.mp h
  cases henc : enclosedName a.segs with
  | none => rw [extractEntry_skip _ _ _ henc]; exact h
  | some segs =>
      cases hsl : endsWithSlash segs with
      | true =>
          rw [extractEntry_dir_eq _ _ _ _ henc hsl]
          apply applyMode_ne_none
          rw [createDirAll, lookup_mkDirsList_some _ fs q n hn]
          simp
      | false =>
          rw [extractEntry_file_eq _ _ _ _ henc hsl]
          apply applyMode_ne_none
          rw [lookup_setFile]
          by_cases hq : q = (outDir ++ resolveRel (compsOf segs))
          · rw [if_pos hq]; simp
          · rw [if_neg hq]
            split
            · rw [createDirAll, lookup_mkDirsList_some _ fs q n hn]; simp
            · exact h

theorem lookup_createDirAll_under (outDir : List String) (fs : FS)
    (hinv : ∀ q, q <+: outDir → q ≠ outDir → lookupFS q fs ≠ none)
    (p target rel : List String) (hp : ¬outDir <+: p)
    (htar : target <+: outDir ++ rel) :
    lookupFS p (createDirAll fs target) = lookupFS p fs := by
  rcases lookup_mkDirsList_cases target.inits fs p with h | ⟨hmem, h⟩
  · exact h
  · have hptar : p <+: target := (List.mem_inits _ _).mp hmem
    have hpout : p <+: outDir ++ rel := hptar.trans htar
    rcases front_total hpout (List.prefix_append outDir rel) with hcase | hcase
    · have hpne2 : p ≠ outDir := by
        intro hcon
        exact hp (hcon ▸ List.prefix_refl _)
      obtain ⟨n, hn⟩ := Option.ne_none_iff_exists'.mp (hinv p hcase hpne2)
      rw [createDirAll, lookup_mkDirsList_some _ fs p n hn, hn]
    · exact absurd hcase hp

theorem extractEntry_outside (outDir : List String) (fs : FS) (a : ArchiveEntry)
    (hinv : ∀ q, q <+: outDir → q ≠ outDir → lookupFS q fs ≠ none)
    (p : List String) (hp : ¬outDir <+: p) :
    lookupFS p (extractEntry outDir fs a) = lookupFS p fs := by
  cases henc : enclosedName a.segs with
  | none => rw [extractEntry_skip _ _ _ henc]
  | some segs =>
      have hpne : ∀ r : List String, ¬p = outDir ++ r := by
        intro r hcon
        exact hp (hcon ▸ List.prefix_append outDir r)
      cases hsl : endsWithSlash segs with
      | true =>
          rw [extractEntry_dir_eq _ _ _ _ henc hsl,
            lookup_applyMode_ne _ _ _ _ (hpne _)]
          exact lookup_createDirAll_under outDir fs hinv p _ _ hp (List.prefix_refl _)
      | false =>
          rw [extractEntry_file_eq _ _ _ _ henc hsl,
            lookup_applyMode_ne _ _ _ _ (hpne _), lookup_setFile, if_neg (hpne _)]
          split
          · exact lookup_createDirAll_under outDir fs hinv p _ _ hp (dropLast_front _)
          · rfl

theorem core_eq_of_map (o : Option Node) (c : Node)
    (h : o.map Node.core = some c) : ∃ n', o = some n' ∧ n'.core = c := by
  cases o with
  | none => cases h
  | some n' => exact ⟨n', rfl, by simpa using h⟩

theorem dir_of_core (n : Node) (m : Option Nat) (h : n.core = Node.dirNode m) :
    ∃ mm, n = Node.dirNode mm := by
  cases n with
  | dirNode m2 => exact ⟨m2, rfl⟩
  | fileNode c m2 => cases h

theorem file_of_core (n : Node) (c : List Nat) (m : Option Nat)
    (h : n.core = Node.fileNode c m) : ∃ mm, n = Node.fileNode c mm := by
  cases n with
  | dirNode m2 => cases h
  | fileNode c2 m2 =>
      simp only [Node.core, Node.fileNode.injEq] at h
      exact ⟨m2, by rw [h.1]⟩

theorem lookup_createDirAll_shape (fs : FS) (t p : List String) :
    lookupFS p (createDirAll fs t) = lookupFS p fs ∨
      lookupFS p (createDirAll fs t) = some (Node.dirNode none) := by
  rcases lookup_mkDirsList_cases t.inits fs p with h | ⟨_, h⟩
  · exact Or.inl h
  · exact Or.inr h

theorem extractEntry_core_preserve (outDir : List String) (fs : FS) (a : ArchiveEntry)
    (p : List String) (n : Node) (hp : lookupFS p fs = some n)
    (hft : fileTargetOf outDir a ≠ some p) :
    ∃ n', lookupFS p (extractEntry outDir fs a) = some n' ∧ n'.core = n.core := by
  cases henc : enclosedName a.segs with
  | none => exact ⟨n, by rw [extractEntry_skip _ _ _ henc]; exact hp, rfl⟩
  | some segs =>
      cases hsl : endsWithSlash segs with
      | true =>
          rw [extractEntry_dir_eq _ _ _ _ henc hsl]
          have h1 : lookupFS p (createDirAll fs (outDir ++ resolveRel (compsOf segs))) =
              some n := by
            rw [createDirAll, lookup_mkDirsList_some _ fs p n hp]
          have h2 := lookup_applyMode_core
            (createDirAll fs (outDir ++ resolveRel (compsOf segs)))
            (outDir ++ resolveRel (compsOf segs)) p a.mode
          rw [h1] at h2
          exact core_eq_of_map _ _ h2
      | false =>
          have hne : ¬p = outDir ++ resolveRel (compsOf segs) := by
            intro hcon
            apply hft
            rw [fileTargetOf, henc]
            simp [hsl, hcon]
          rw [extractEntry_file_eq _ _ _ _ henc hsl]
          have h1 : lookupFS p
              (setFile
                (if lookupFS (outDir ++ resolveRel (compsOf segs)).dropLast fs = none
                 then createDirAll fs (outDir ++ resolveRel (compsOf segs)).dropLast
                 else fs)
                (outDir ++ resolveRel (compsOf segs)) a.content) = some n := by
            rw [lookup_setFile, if_neg hne]
            split
            · rw [createDirAll, lookup_mkDirsList_some _ fs p n hp]
            · exact hp
          have h2 := lookup_applyMode_core
            (setFile
              (if lookupFS (outDir ++ resolveRel (compsOf segs)).dropLast fs = none
               then createDirAll fs (outDir ++ resolveRel (compsOf segs)).dropLast
               else fs)
              (outDir ++ resolveRel (compsOf segs)) a.content)
            (outDir ++ resolveRel (compsOf segs)) p a.mode
          rw [h1] at h2
          exact core_eq_of_map _ _ h2

theorem extractEntry_noFile (outDir : List String) (fs : FS) (a : ArchiveEntry)
    (p : List String) (hnf : NoFileAt fs p) (hft : fileTargetOf outDir a ≠ some p) :
    NoFileAt (extractEntry outDir fs a) p := by
  intro c m hcon
  cases henc : enclosedName a.segs with
  | none =>
      rw [extractEntry_skip _ _ _ henc] at hcon
      exact hnf c m hcon
  | some segs =>
      cases hsl : endsWithSlash segs with
      | true =>
          rw [extractEntry_dir_eq _ _ _ _ henc hsl] at hcon
          have h2 := lookup_applyMode_core
            (createDirAll fs (outDir ++ resolveRel (compsOf segs)))
            (outDir ++ resolveRel (compsOf segs)) p a.mode
          rw [hcon] at h2
          obtain ⟨n0, hn0, hcore⟩ := core_eq_of_map _ _ h2.symm
          obtain ⟨mm, hmm⟩ := file_of_core n0 c none hcore
          rcases lookup_createDirAll_shape fs (outDir ++ resolveRel (compsOf segs)) p with
            h3 | h3
          · rw [hn0, hmm] at h3
            exact hnf c mm h3.symm
          · rw [hn0, hmm] at h3
            cases h3
      | false =>
          have hne : ¬p = outDir ++ resolveRel (compsOf segs) := by
            intro hcon2
            apply hft
            rw [fileTargetOf, henc]
            simp [hsl, hcon2]
          rw [extractEntry_file_eq _ _ _ _ henc hsl] at hcon
          have h2 := lookup_applyMode_core
            (setFile
              (if lookupFS (outDir ++ resolveRel (compsOf segs)).dropLast fs = none
               then createDirAll fs (outDir ++ resolveRel (compsOf segs)).dropLast
               else fs)
              (outDir ++ resolveRel (compsOf segs)) a.content)
            (outDir ++ resolveRel (compsOf segs)) p a.mode
          rw [hcon, lookup_setFile, if_neg hne] at h2
          obtain ⟨n0, hn0, hcore⟩ := core_eq_of_map _ _ h2.symm
          obtain ⟨mm, hmm⟩ := file_of_core n0 c none hcore
          revert hn0
          split
          · intro hn0
            rcases lookup_createDirAll_shape fs
                (outDir ++ resolveRel (compsOf segs)).dropLast p with h3 | h3
            · rw [hn0, hmm] at h3
              exact hnf c mm h3.symm
            · rw [hn0, hmm] at h3
              cases h3
          · intro hn0
            rw [hmm] at hn0
            exact hnf c mm hn0

theorem extractEntry_file_sets (outDir : List String) (fs : FS) (a : ArchiveEntry)
    (segs : List String) (henc : enclosedName a.segs = some segs)
    (hsl : endsWithSlash segs = false) :
    ∃ mm, lookupFS (outDir ++ resolveRel (compsOf segs)) (extractEntry outDir fs a) =
      some (Node.fileNode a.content mm) := by
  rw [extractEntry_file_eq _ _ _ _ henc hsl]
  cases hmode : a.mode with
  | none =>
      refine ⟨none, ?_⟩
      rw [applyMode, lookup_setFile, if_pos rfl]
  | some m =>
      refine ⟨some m, ?_⟩
      rw [applyMode, lookup_setPermissions, if_pos rfl, lookup_setFile, if_pos rfl]
      rfl

theorem extractEntry_dir_sets (outDir : List String) (fs : FS) (a : ArchiveEntry)
    (segs : List String) (henc : enclosedName a.segs = some segs)
    (hsl : endsWithSlash segs = true)
    (hnf : NoFileAt fs (outDir ++ resolveRel (compsOf segs))) :
    ∃ mm, lookupFS (outDir ++ resolveRel (compsOf segs)) (extractEntry outDir fs a) =
      some (Node.dirNode mm) := by
  rw [extractEntry_dir_eq _ _ _ _ henc hsl]
  have hne : lookupFS (outDir ++ resolveRel (compsOf segs))
      (createDirAll fs (outDir ++ resolveRel (compsOf segs))) ≠ none := by
    rw [createDirAll]
    exact lookup_mkDirsList_mem _ fs _ ((List.mem_inits _ _).mpr (List.prefix_refl _))
  have hdir : ∃ m0, lookupFS (outDir ++ resolveRel (compsOf segs))
      (createDirAll fs (outDir ++ resolveRel (compsOf segs))) = some (Node.dirNode m0) := by
    rcases lookup_createDirAll_shape fs (outDir ++ resolveRel (compsOf segs))
        (outDir ++ resolveRel (compsOf segs)) with h3 | h3
    · rw [h3] at hne
      obtain ⟨n0, hn0⟩ := Option.ne_none_iff_exists'.mp hne
      cases n0 with
      | dirNode m0 => exact ⟨m0, h3.trans hn0⟩
      | fileNode c0 m0 => exact absurd hn0 (hnf c0 m0)
    · exact ⟨none, h3⟩
  obtain ⟨m0, hm0⟩ := hdir
  have h2 := lookup_applyMode_core
    (createDirAll fs (outDir ++ resolveRel (compsOf segs)))
    (outDir ++ resolveRel (compsOf segs)) (outDir ++ resolveRel (compsOf segs)) a.mode
  rw [hm0] at h2
  obtain ⟨n', hn', hcore⟩ := core_eq_of_map _ _ h2
  obtain ⟨mm, hmm⟩ := dir_of_core n' none hcore
  exact ⟨mm, by rw [hn', hmm]⟩

/-! ## Whole-archive extraction lemmas -/

theorem uncompress_core_preserve (outDir : List String) :
    ∀ (archive : List ArchiveEntry) (fs : FS) (p : List String) (n : Node),
    lookupFS p fs = some n →
    (∀ a ∈ archive, fileTargetOf outDir a ≠ some p) →
    ∃ n', lookupFS p (uncompressCompute outDir archive fs) = some n' ∧ n'.core = n.core := by
  intro archive
  induction archive with
  | nil => intro fs p n hp _; exact ⟨n, hp, rfl⟩
  | cons a t ih =>
      intro fs p n hp hft
      obtain ⟨n1, hn1, hcore1⟩ := extractEntry_core_preserve outDir fs a p n hp
        (hft a (List.mem_cons_self _ _))
      obtain ⟨n2, hn2, hcore2⟩ := ih (extractEntry outDir fs a) p n1 hn1
        (fun a' ha' => hft a' (List.mem_cons_of_mem _ ha'))
      exact ⟨n2, hn2, hcore2.trans hcore1⟩

theorem uncompress_noFile_preserve (outDir : List String) :
    ∀ (archive : List ArchiveEntry) (fs : FS) (p : List String),
    NoFileAt fs p →
    (∀ a ∈ archive, fileTargetOf outDir a ≠ some p) →
    NoFileAt (uncompressCompute outDir archive fs) p := by
  intro archive
  induction archive with
  | nil => intro fs p h _; exact h
  | cons a t ih =>
      intro fs p hnf hft
      exact ih (extractEntry outDir fs a) p
        (extractEntry_noFile outDir fs a p hnf (hft a (List.mem_cons_self _ _)))
        (fun a' ha' => hft a' (List.mem_cons_of_mem _ ha'))

theorem uncompress_inv_preserve (outDir : List String) :
    ∀ (archive : List ArchiveEntry) (fs : FS),
    (∀ q, q <+: outDir → q ≠ outDir → lookupFS q fs ≠ none) →
    ∀ q, q <+: outDir → q ≠ outDir →
      lookupFS q (uncompressCompute outDir archive fs) ≠ none := by
  intro archive
  induction archive with
  | nil => intro fs hinv q h1 h2; exact hinv q h1 h2
  | cons a t ih =>
      intro fs hinv q h1 h2
      exact ih (extractEntry outDir fs a)
        (fun q' h1' h2' => extractEntry_ne_none outDir fs a q' (hinv q' h1' h2')) q h1 h2

theorem uncompress_outside (outDir : List String) :
    ∀ (archive : List ArchiveEntry) (fs : FS),
    (∀ q, q <+: outDir → q ≠ outDir → lookupFS q fs ≠ none) →
    ∀ p, ¬outDir <+: p →
      lookupFS p (uncompressCompute outDir archive fs) = lookupFS p fs := by
  intro archive
  induction archive with
  | nil => intro fs _ p _; rfl
  | cons a t ih =>
      intro fs hinv p hp
      have h1 : lookupFS p (extractEntry outDir fs a) = lookupFS p fs :=
        extractEntry_outside outDir fs a hinv p hp
      have h2 := ih (extractEntry outDir fs a)
        (fun q' h1' h2' => extractEntry_ne_none outDir fs a q' (hinv q' h1' h2')) p hp
      exact h2.trans h1

/-! ## Walk lemmas -/

theorem append_same_cancel {α : Type} :
    ∀ {l m n : List α}, l ++ m = l ++ n → m = n := by
  intro l
  induction l with
  | nil => intro m n h; exact h
  | cons a t ih =>
      intro m n h
      injection h with h1 h2
      exact ih h2

theorem wfDir_file (n : String) (c : List Nat) (m : Option Nat) (rest : FSDir)
    (h : wfDir (.file n c m rest) = true) :
    GoodSeg n ∧ n ∉ namesOf rest ∧ wfDir rest = true := by
  simpa [wfDir, Bool.and_eq_true, decide_eq_true_eq, and_assoc] using h

theorem wfDir_dir (n : String) (m : Option Nat) (ch rest : FSDir)
    (h : wfDir (.dir n m ch rest) = true) :
    GoodSeg n ∧ n ∉ namesOf rest ∧ wfDir ch = true ∧ wfDir rest = true := by
  simpa [wfDir, Bool.and_eq_true, decide_eq_true_eq, and_assoc] using h

theorem walkDir_shape :
    ∀ (d : FSDir) (pre : List String), wfDir d = true →
    ∀ e ∈ walkDir pre d, ∃ nm suf, nm ∈ namesOf d ∧ e.rel = pre ++ nm :: suf ∧
      GoodSeg nm ∧ (∀ s ∈ suf, GoodSeg s) := by
  intro d
  induction d with
  | nil => intro pre _ e he; cases he
  | file n c m rest ih =>
      intro pre hwf e he
      obtain ⟨hn, _, hrest⟩ := wfDir_file n c m rest hwf
      rcases List.mem_cons.mp he with he | he
      · exact ⟨n, [], List.mem_cons_self _ _, by rw [he], hn, by intro s hs; cases hs⟩
      · obtain ⟨nm, suf, hmem, hrel, hg1, hg2⟩ := ih pre hrest e he
        exact ⟨nm, suf, List.mem_cons_of_mem _ hmem, hrel, hg1, hg2⟩
  | dir n m ch rest ihch ihrest =>
      intro pre hwf e he
      obtain ⟨hn, _, hch, hrest⟩ := wfDir_dir n m ch rest hwf
      rcases List.mem_cons.mp he with he | he
      · exact ⟨n, [], List.mem_cons_self _ _, by rw [he], hn, by intro s hs; cases hs⟩
      · rcases List.mem_append.mp he with he | he
        · obtain ⟨nm, suf, hmem, hrel, hg1, hg2⟩ := ihch (pre ++ [n]) hch e he
          refine ⟨n, nm :: suf, List.mem_cons_self _ _, ?_, hn, ?_⟩
          · rw [hrel, List.append_assoc]
            rfl
          · intro s hs
            rcases List.mem_cons.mp hs with hs | hs
            · rw [hs]; exact hg1
            · exact hg2 s hs
        · obtain ⟨nm, suf, hmem, hrel, hg1, hg2⟩ := ihrest pre hrest e he
          exact ⟨nm, suf, List.mem_cons_of_mem _ hmem, hrel, hg1, hg2⟩

theorem walkDir_nodup :
    ∀ (d : FSDir) (pre : List String), wfDir d = true →
    ((walkDir pre d).map (fun e => e.rel)).Nodup := by
  intro d
  induction d with
  | nil => intro pre _; simp [walkDir]
  | file n c m rest ih =>
      intro pre hwf
      obtain ⟨hn, hnin, hrest⟩ := wfDir_file n c m rest hwf
      simp only [walkDir, List.map_cons, List.nodup_cons]
      refine ⟨?_, ih pre hrest⟩
      intro hmem
      obtain ⟨e, he, hrel⟩ := List.mem_map.mp hmem
      obtain ⟨nm, suf, hmemn, hrel2, _, _⟩ := walkDir_shape rest pre hrest e he
      rw [hrel2] at hrel
      have h2 := append_same_cancel hrel
      injection h2 with h3 h4
      apply hnin
      rw [← h3]
      exact hmemn
  | dir n m ch rest ihch ihrest =>
      intro pre hwf
      obtain ⟨hn, hnin, hch, hrest⟩ := wfDir_dir n m ch rest hwf
      simp only [walkDir, List.map_cons, List.map_append, List.nodup_cons,
        List.nodup_append]
      refine ⟨?_, ihch (pre ++ [n]) hch, ihrest pre hrest, ?_⟩
      · intro hmem
        rcases List.mem_append.mp hmem with hmem | hmem
        · obtain ⟨e, he, hrel⟩ := List.mem_map.mp hmem
          obtain ⟨nm, suf, hmemn, hrel2, _, _⟩ := walkDir_shape ch (pre ++ [n]) hch e he
          rw [hrel2, List.append_assoc] at hrel
          have h2 := append_same_cancel hrel
          simp at h2
        · obtain ⟨e, he, hrel⟩ := List.mem_map.mp hmem
          obtain ⟨nm, suf, hmemn, hrel2, _, _⟩ := walkDir_shape rest pre hrest e he
          rw [hrel2] at hrel
          have h2 := append_same_cancel hrel
          injection h2 with h3 h4
          apply hnin
          rw [← h3]
          exact hmemn
      · intro x hx1 hx2
        obtain ⟨e1, he1, hr1⟩ := List.mem_map.mp hx1
        obtain ⟨e2, he2, hr2⟩ := List.mem_map.mp hx2
        obtain ⟨nm1, suf1, hm1, hrel1, _, _⟩ := walkDir_shape ch (pre ++ [n]) hch e1 he1
        obtain ⟨nm2, suf2, hm2, hrel2, _, _⟩ := walkDir_shape rest pre hrest e2 he2
        rw [← hr1, hrel1, List.append_assoc] at hr2
        rw [hrel2] at hr2
        have h2 := append_same_cancel hr2.symm
        simp only [List.cons_append, List.nil_append] at h2
        injection h2 with h3 h4
        apply hnin
        rw [h3]
        exact hm2

theorem walkRoot_shape (d : FSDir) (hwf : wfDir d = true) :
    ∀ e ∈ walkRoot d, e = ⟨[], false, [], none⟩ ∨
      (e.rel ≠ [] ∧ ∀ s ∈ e.rel, GoodSeg s) := by
  intro e he
  rcases List.mem_cons.mp he with he | he
  · exact Or.inl he
  · obtain ⟨nm, suf, _, hrel, hg1, hg2⟩ := walkDir_shape d [] hwf e he
    refine Or.inr ⟨by rw [hrel]; simp, ?_⟩
    intro s hs
    rw [hrel] at hs
    rcases List.mem_cons.mp hs with hs | hs
    · rw [hs]; exact hg1
    · exact hg2 s hs

theorem walkRoot_nodup (d : FSDir) (hwf : wfDir d = true) :
    ((walkRoot d).map (fun e => e.rel)).Nodup := by
  simp only [walkRoot, List.map_cons, List.nodup_cons]
  refine ⟨?_, walkDir_nodup d [] hwf⟩
  intro hmem
  obtain ⟨e, he, hrel⟩ := List.mem_map.mp hmem
  obtain ⟨nm, suf, _, hrel2, _, _⟩ := walkDir_shape d [] hwf e he
  rw [hrel2] at hrel
  cases hrel

/-! ## Good stored names go through the extractor untouched -/

theorem data_ne_nil (s : String) (h : s ≠ "") : s.data ≠ [] := by
  intro hd
  apply h
  cases s with
  | mk l =>
      simp only [String.data] at hd
      rw [hd]

theorem getLast_mem_of_eq {α : Type} :
    ∀ (l : List α) (a : α), l.getLast? = some a → a ∈ l := by
  intro l
  induction l with
  | nil => intro a h; cases h
  | cons x t ih =>
      intro a h
      cases t with
      | nil =>
          simp only [List.getLast?_singleton, Option.some.injEq] at h
          rw [h]
          exact List.mem_singleton_self _
      | cons y t2 =>
          rw [List.getLast?_cons_cons] at h
          exact List.mem_cons_of_mem _ (ih a h)

theorem depthCheck_noParent :
    ∀ (l : List String), (∀ s ∈ l, s ≠ "..") → ∀ dep, depthCheck dep l = true := by
  intro l
  induction l with
  | nil => intro _ dep; rfl
  | cons c t ih =>
      intro h dep
      have hc : ¬c = ".." := h c (List.mem_cons_self _ _)
      simp only [depthCheck]
      rw [if_neg hc]
      exact ih (fun s hs => h s (List.mem_cons_of_mem _ hs)) (dep + 1)

theorem resolveRel_aux :
    ∀ (l : List String) (acc : List String), (∀ s ∈ l, s ≠ "..") →
    l.foldl (fun acc c => if c = ".." then acc.dropLast else acc ++ [c]) acc = acc ++ l := by
  intro l
  induction l with
  | nil => intro acc _; simp
  | cons c t ih =>
      intro acc h
      have hc : ¬c = ".." := h c (List.mem_cons_self _ _)
      simp only [List.foldl_cons, if_neg hc]
      rw [ih (acc ++ [c]) (fun s hs => h s (List.mem_cons_of_mem _ hs))]
      simp

theorem resolveRel_noParent (l : List String) (h : ∀ s ∈ l, s ≠ "..") :
    resolveRel l = l := by
  rw [resolveRel, resolveRel_aux l [] h]
  rfl

theorem hasNul_good (s : String) (h : GoodSeg s) : hasNul s = false := by
  simp only [hasNul, decide_eq_false_iff_not]
  exact h.2.2.2.2

theorem enclosedName_good (segs : List String) (hne : segs ≠ [])
    (hg : ∀ s ∈ segs, GoodSeg s) :
    enclosedName segs = some segs ∧ compsOf segs = segs ∧ resolveRel segs = segs ∧
      endsWithSlash segs = false := by
  have hnul : segs.any hasNul = false := by
    rw [List.any_eq_false]
    intro s hs
    simp [hasNul_good s (hg s hs)]
  have habs : ¬(2 ≤ segs.length ∧ segs.head? = some "") := by
    rintro ⟨_, hhead⟩
    cases segs with
    | nil => cases hhead
    | cons a t =>
        simp only [List.head?_cons, Option.some.injEq] at hhead
        exact (hg a (List.mem_cons_self _ _)).1 hhead
  have hcomps : compsOf segs = segs := by
    rw [compsOf, List.filter_eq_self]
    intro s hs
    have := hg s hs
    simp [this.1, this.2.1]
  have hnopar : ∀ s ∈ segs, s ≠ ".." := fun s hs => (hg s hs).2.2.1
  have hdep : depthCheck 0 (compsOf segs) = true := by
    rw [hcomps]
    exact depthCheck_noParent segs hnopar 0
  have hslash : endsWithSlash segs = false := by
    rw [endsWithSlash, decide_eq_false_iff_not]
    rintro ⟨_, hlast⟩
    exact (hg "" (getLast_mem_of_eq segs "" hlast)).1 rfl
  refine ⟨?_, hcomps, resolveRel_noParent segs hnopar, hslash⟩
  rw [enclosedName, if_neg (by simp [hnul]), if_neg habs, if_pos hdep]

theorem enclosedName_dirGood (rel : List String) (hne : rel ≠ [])
    (hg : ∀ s ∈ rel, GoodSeg s) :
    enclosedName (rel ++ [""]) = some (rel ++ [""]) ∧ compsOf (rel ++ [""]) = rel ∧
      resolveRel rel = rel ∧ endsWithSlash (rel ++ [""]) = true := by
  have hnul : (rel ++ [""]).any hasNul = false := by
    rw [List.any_eq_false]
    intro s hs
    rcases List.mem_append.mp hs with hs | hs
    · simp [hasNul_good s (hg s hs)]
    · rw [List.mem_singleton.mp hs]
      simp [hasNul]
  have habs : ¬(2 ≤ (rel ++ [""]).length ∧ (rel ++ [""]).head? = some "") := by
    rintro ⟨_, hhead⟩
    cases rel with
    | nil => exact hne rfl
    | cons a t =>
        simp only [List.cons_append, List.head?_cons, Option.some.injEq] at hhead
        exact (hg a (List.mem_cons_self _ _)).1 hhead
  have hcomps : compsOf (rel ++ [""]) = rel := by
    rw [compsOf, List.filter_append]
    have h1 : List.filter (fun s => decide (s ≠ "" ∧ s ≠ ".")) rel = rel := by
      rw [List.filter_eq_self]
      intro s hs
      have := hg s hs
      simp [this.1, this.2.1]
    have h2 : List.filter (fun s => decide (s ≠ "" ∧ s ≠ ".")) [""] = [] := by
      simp
    rw [h1, h2, List.append_nil]
  have hnopar : ∀ s ∈ rel, s ≠ ".." := fun s hs => (hg s hs).2.2.1
  have hdep : depthCheck 0 (compsOf (rel ++ [""])) = true := by
    rw [hcomps]
    exact depthCheck_noParent rel hnopar 0
  have hslash : endsWithSlash (rel ++ [""]) = true := by
    rw [endsWithSlash, decide_eq_true_eq]
    constructor
    · rw [List.length_append]
      cases rel with
      | nil => exact absurd rfl hne
      | cons a t => simp
    · rw [List.getLast?_concat]
  refine ⟨?_, hcomps, resolveRel_noParent rel hnopar, hslash⟩
  rw [enclosedName, if_neg (by simp [hnul]), if_neg habs, if_pos hdep]

theorem pathChars_ne_nil (rel : List String) (hne : rel ≠ [])
    (hg : ∀ s ∈ rel, GoodSeg s) : pathChars rel ≠ [] := by
  cases rel with
  | nil => exact absurd rfl hne
  | cons a t =>
      cases t with
      | nil =>
          exact data_ne_nil a (hg a (List.mem_cons_self _ _)).1
      | cons b t2 =>
          simp [pathChars]

/-! ## Shape of emitted archive entries -/

theorem archSpec_cases (pats : List Pattern) (e : WalkEntry) (a : ArchiveEntry)
    (h : archSpec pats e = some a) :
    excludedBy pats (pathChars e.rel) = false ∧
      ((e.isFile = true ∧ a = ⟨e.rel, false, e.content, e.mode⟩) ∨
       (e.isFile = false ∧ pathChars e.rel ≠ [] ∧ a = ⟨e.rel ++ [""], true, [], e.mode⟩)) := by
  by_cases hex : excludedBy pats (pathChars e.rel) = true
  · simp [archSpec, hex] at h
  · refine ⟨by simpa using hex, ?_⟩
    by_cases hf : e.isFile = true
    · left
      refine ⟨hf, ?_⟩
      simp only [archSpec, hex, hf] at h
      simp only [Bool.false_eq_true, if_false, if_true, Option.some.injEq] at h
      exact h.symm
    · right
      by_cases hne : pathChars e.rel = []
      · simp [archSpec, hex, hf, hne] at h
      · refine ⟨by simpa using hf, hne, ?_⟩
        rw [archSpec, if_neg hex, if_neg hf, if_pos hne] at h
        injection h with h2
        exact h2.symm

theorem fileTarget_fileShape (outDir rel : List String) (c : List Nat) (m : Option Nat)
    (hne : rel ≠ []) (hg : ∀ s ∈ rel, GoodSeg s) :
    fileTargetOf outDir ⟨rel, false, c, m⟩ = some (outDir ++ rel) := by
  obtain ⟨henc, hcomp, hres, hslash⟩ := enclosedName_good rel hne hg
  rw [fileTargetOf]
  simp only [henc, hslash, hcomp, hres]
  rfl

theorem fileTarget_dirShape (outDir rel : List String) (m : Option Nat)
    (hne : rel ≠ []) (hg : ∀ s ∈ rel, GoodSeg s) :
    fileTargetOf outDir ⟨rel ++ [""], true, [], m⟩ = none := by
  obtain ⟨henc, hcomp, hres, hslash⟩ := enclosedName_dirGood rel hne hg
  rw [fileTargetOf]
  simp only [henc, hslash]
  rfl

theorem segs_determine_rel (e e' : WalkEntry) (a a' : ArchiveEntry)
    (hgood : e.rel ≠ [] → ∀ s ∈ e.rel, GoodSeg s)
    (hgood' : e'.rel ≠ [] → ∀ s ∈ e'.rel, GoodSeg s)
    (hsh : (e.isFile = true ∧ a = ⟨e.rel, false, e.content, e.mode⟩) ∨
      (e.isFile = false ∧ pathChars e.rel ≠ [] ∧ a = ⟨e.rel ++ [""], true, [], e.mode⟩))
    (hsh' : (e'.isFile = true ∧ a' = ⟨e'.rel, false, e'.content, e'.mode⟩) ∨
      (e'.isFile = false ∧ pathChars e'.rel ≠ [] ∧ a' = ⟨e'.rel ++ [""], true, [], e'.mode⟩))
    (hroot : e.rel = [] → e.isFile = false)
    (hroot' : e'.rel = [] → e'.isFile = false)
    (hseq : a.segs = a'.segs) : e.rel = e'.rel := by
  have hmixed : ∀ (r r' : List String), r ≠ [] → (∀ s ∈ r, GoodSeg s) →
      r = r' ++ [""] → False := by
    intro r r' hner hgr hcon
    have hmem : ("" : String) ∈ r := by
      rw [hcon]
      simp
    exact (hgr "" hmem).1 rfl
  rcases hsh with ⟨hf, ha⟩ | ⟨hf, hpc, ha⟩
  · have hner : e.rel ≠ [] := by
      intro hcon
      rw [hroot hcon] at hf
      cases hf
    rcases hsh' with ⟨hf', ha'⟩ | ⟨hf', hpc', ha'⟩
    · rw [ha, ha'] at hseq
      exact hseq
    · rw [ha, ha'] at hseq
      exact absurd (hmixed e.rel e'.rel hner (hgood hner) hseq) id
  · have hner : e.rel ≠ [] := by
      intro hcon
      rw [hcon] at hpc
      exact hpc rfl
    rcases hsh' with ⟨hf', ha'⟩ | ⟨hf', hpc', ha'⟩
    · have hner' : e'.rel ≠ [] := by
        intro hcon
        rw [hroot' hcon] at hf'
        cases hf'
      rw [ha, ha'] at hseq
      exact absurd (hmixed e'.rel e.rel hner' (hgood' hner') hseq.symm) id
    · rw [ha, ha'] at hseq
      have := congrArg List.dropLast hseq
      simpa [List.dropLast_concat] using this

theorem filterMap_archSpec_nodup (pats : List Pattern) :
    ∀ (ws : List WalkEntry),
    ((ws.map (fun e => e.rel)).Nodup) →
    (∀ e ∈ ws, e.rel = [] → e.isFile = false) →
    (∀ e ∈ ws, e.rel ≠ [] → ∀ s ∈ e.rel, GoodSeg s) →
    ((ws.filterMap (archSpec pats)).map (fun a => a.segs)).Nodup := by
  intro ws
  induction ws with
  | nil => intro _ _ _; simp
  | cons e t ih =>
      intro hnodup hroot hgood
      simp only [List.map_cons, List.nodup_cons] at hnodup
      cases harch : archSpec pats e with
      | none =>
          rw [List.filterMap_cons_none harch]
          exact ih hnodup.2 (fun e' he' => hroot e' (List.mem_cons_of_mem _ he'))
            (fun e' he' => hgood e' (List.mem_cons_of_mem _ he'))
      | some a =>
          rw [List.filterMap_cons_some harch]
          simp only [List.map_cons, List.nodup_cons]
          refine ⟨?_, ih hnodup.2 (fun e' he' => hroot e' (List.mem_cons_of_mem _ he'))
            (fun e' he' => hgood e' (List.mem_cons_of_mem _ he'))⟩
          intro hmem
          obtain ⟨a', ha'mem, ha'seq⟩ := List.mem_map.mp hmem
          obtain ⟨e', he't, ha'⟩ := List.mem_filterMap.mp ha'mem
          have hrel : e.rel = e'.rel := by
            refine segs_determine_rel e e' a a'
              (hgood e (List.mem_cons_self _ _))
              (hgood e' (List.mem_cons_of_mem _ he't))
              (archSpec_cases pats e a harch).2
              (archSpec_cases pats e' a' ha').2
              (hroot e (List.mem_cons_self _ _))
              (hroot e' (List.mem_cons_of_mem _ he't)) ha'seq.symm
          apply hnodup.1
          rw [hrel]
          exact List.mem_map.mpr ⟨e', he't, rfl⟩

/-! ## Round-trip assembly -/

theorem filterMap_id_map_some {α : Type} (l : List α) :
    (l.map some).filterMap id = l := by
  induction l with
  | nil => rfl
  | cons a t ih => simp [ih]

theorem uncompress_append (outDir : List String) (l1 l2 : List ArchiveEntry)
    (a : ArchiveEntry) (fs : FS) :
    uncompressCompute outDir (l1 ++ a :: l2) fs =
      uncompressCompute outDir l2 (extractEntry outDir (uncompressCompute outDir l1 fs) a) := by
  simp [uncompressCompute, List.foldl_append]

theorem nodup_middle_split {α β : Type} (f : α → β) (l1 l2 : List α) (a : α)
    (h : ((l1 ++ a :: l2).map f).Nodup) : f a ∉ l1.map f ∧ f a ∉ l2.map f := by
  rw [List.map_append, List.nodup_append] at h
  obtain ⟨_, h2, h3⟩ := h
  rw [List.map_cons, List.nodup_cons] at h2
  refine ⟨?_, h2.1⟩
  intro hmem
  exact h3 hmem (List.mem_cons_self _ _)

theorem fileTarget_hits (outDir : List String) (pats : List Pattern) (ws : List WalkEntry)
    (hnodup : ((ws.map (fun e => e.rel)).Nodup))
    (hroot : ∀ e ∈ ws, e.rel = [] → e.isFile = false)
    (hgood : ∀ e ∈ ws, e.rel ≠ [] → ∀ s ∈ e.rel, GoodSeg s)
    (e : WalkEntry) (he : e ∈ ws)
    (a' : ArchiveEntry) (e' : WalkEntry) (he' : e' ∈ ws)
    (ha' : archSpec pats e' = some a')
    (hcon : fileTargetOf outDir a' = some (outDir ++ e.rel)) :
    e' = e ∧ e.isFile = true ∧ a' = ⟨e.rel, false, e.content, e.mode⟩ := by
  obtain ⟨_, hsh⟩ := archSpec_cases pats e' a' ha'
  rcases hsh with ⟨hf', ha'eq⟩ | ⟨hf', hpc', ha'eq⟩
  · have hner' : e'.rel ≠ [] := by
      intro hc
      rw [hroot e' he' hc] at hf'
      cases hf'
    have hg' := hgood e' he' hner'
    rw [ha'eq, fileTarget_fileShape outDir e'.rel e'.content e'.mode hner' hg'] at hcon
    injection hcon with hcon2
    have hrel : e'.rel = e.rel := append_same_cancel hcon2
    have hee : e' = e := List.inj_on_of_nodup_map hnodup he' he hrel
    subst hee
    exact ⟨rfl, hf', ha'eq⟩
  · have hner' : e'.rel ≠ [] := by
      intro hc
      rw [hc] at hpc'
      exact hpc' rfl
    have hg' := hgood e' he' hner'
    rw [ha'eq, fileTarget_dirShape outDir e'.rel e'.mode hner' hg'] at hcon
    cases hcon

theorem roundtrip_main (d : FSDir) (opts : ZipOptions) (outDir : List String) (fs0 : FS)
    (hwf : wfDir d = true)
    (hempty : ∀ q, outDir <+: q → q ≠ outDir → lookupFS q fs0 = none) :
    ∀ e ∈ walkRoot d,
      excludedBy (compileExcludes opts.exclude) (pathChars e.rel) = false →
      (e.isFile = true →
        ∃ mm, lookupFS (outDir ++ e.rel)
          (uncompressCompute outDir (compressCompute ((walkRoot d).map some) opts).1 fs0) =
          some (Node.fileNode e.content mm)) ∧
      (e.isFile = false → e.rel ≠ [] →
        ∃ mm, lookupFS (outDir ++ e.rel)
          (uncompressCompute outDir (compressCompute ((walkRoot d).map some) opts).1 fs0) =
          some (Node.dirNode mm)) := by
  intro e he hex
  have harch : (compressCompute ((walkRoot d).map some) opts).1 =
      (walkRoot d).filterMap (archSpec (compileExcludes opts.exclude)) := by
    rw [compressCompute_spec, filterMap_id_map_some]
  have hroot : ∀ e' ∈ walkRoot d, e'.rel = [] → e'.isFile = false := by
    intro e' he' hrel
    rcases walkRoot_shape d hwf e' he' with h | h
    · rw [h]
    · exact absurd hrel h.1
  have hgood : ∀ e' ∈ walkRoot d, e'.rel ≠ [] → ∀ s ∈ e'.rel, GoodSeg s := by
    intro e' he' hrel
    rcases walkRoot_shape d hwf e' he' with h | h
    · rw [h] at hrel
      exact absurd rfl hrel
    · exact h.2
  have hnodup := walkRoot_nodup d hwf
  have hsegsnodup := filterMap_archSpec_nodup (compileExcludes opts.exclude) (walkRoot d)
    hnodup hroot hgood
  have hpnotout : outDir ++ e.rel ≠ outDir → True := fun _ => trivial
  constructor
  · intro hf
    have hner : e.rel ≠ [] := by
      intro hc
      rw [hroot e he hc] at hf
      cases hf
    have hg := hgood e he hner
    have haspec : archSpec (compileExcludes opts.exclude) e =
        some ⟨e.rel, false, e.content, e.mode⟩ := by
      rw [archSpec, if_neg (by simp [hex]), if_pos hf]
    have hamem : (⟨e.rel, false, e.content, e.mode⟩ : ArchiveEntry) ∈
        (walkRoot d).filterMap (archSpec (compileExcludes opts.exclude)) :=
      List.mem_filterMap.mpr ⟨e, he, haspec⟩
    obtain ⟨l1, l2, hsplit⟩ := List.append_of_mem hamem
    rw [harch, hsplit, uncompress_append]
    obtain ⟨henc, hcomp, hres, hslash⟩ := enclosedName_good e.rel hner hg
    obtain ⟨m0, hm0⟩ := extractEntry_file_sets outDir (uncompressCompute outDir l1 fs0)
      ⟨e.rel, false, e.content, e.mode⟩ e.rel henc hslash
    rw [hcomp, hres] at hm0
    have hsegssplit := nodup_middle_split (fun a => a.segs) l1 l2 _ (hsplit ▸ hsegsnodup)
    have hnotarget : ∀ a' ∈ l2, fileTargetOf outDir a' ≠ some (outDir ++ e.rel) := by
      intro a' ha'mem hcon
      have ha'arch : a' ∈ (walkRoot d).filterMap (archSpec (compileExcludes opts.exclude)) := by
        rw [hsplit]
        exact List.mem_append.mpr (Or.inr (List.mem_cons_of_mem _ ha'mem))
      obtain ⟨e', he', ha'⟩ := List.mem_filterMap.mp ha'arch
      obtain ⟨_, _, ha'eq⟩ := fileTarget_hits outDir (compileExcludes opts.exclude)
        (walkRoot d) hnodup hroot hgood e he a' e' he' ha' hcon
      apply hsegssplit.2
      exact List.mem_map.mpr ⟨a', ha'mem, by rw [ha'eq]⟩
    obtain ⟨n', hn', hcore⟩ := uncompress_core_preserve outDir l2 _ (outDir ++ e.rel)
      (Node.fileNode e.content m0) hm0 hnotarget
    obtain ⟨mm, hmm⟩ := file_of_core n' e.content none (by rw [hcore]; rfl)
    exact ⟨mm, by rw [hn', hmm]⟩
  · intro hf hner
    have hg := hgood e he hner
    have hpc : pathChars e.rel ≠ [] := pathChars_ne_nil e.rel hner hg
    have haspec : archSpec (compileExcludes opts.exclude) e =
        some ⟨e.rel ++ [""], true, [], e.mode⟩ := by
      rw [archSpec, if_neg (by simp [hex]), if_neg (by simp [hf]), if_pos hpc]
    have hamem : (⟨e.rel ++ [""], true, [], e.mode⟩ : ArchiveEntry) ∈
        (walkRoot d).filterMap (archSpec (compileExcludes opts.exclude)) :=
      List.mem_filterMap.mpr ⟨e, he, haspec⟩
    obtain ⟨l1, l2, hsplit⟩ := List.append_of_mem hamem
    rw [harch, hsplit, uncompress_append]
    obtain ⟨henc, hcomp, hres, hslash⟩ := enclosedName_dirGood e.rel hner hg
    have hsegssplit := nodup_middle_split (fun a => a.segs) l1 l2 _ (hsplit ▸ hsegsnodup)
    have hnotarget1 : ∀ a' ∈ l1, fileTargetOf outDir a' ≠ some (outDir ++ e.rel) := by
      intro a' ha'mem hcon
      have ha'arch : a' ∈ (walkRoot d).filterMap (archSpec (compileExcludes opts.exclude)) := by
        rw [hsplit]
        exact List.mem_append.mpr (Or.inl ha'mem)
      obtain ⟨e', he', ha'⟩ := List.mem_filterMap.mp ha'arch
      obtain ⟨_, hfe, _⟩ := fileTarget_hits outDir (compileExcludes opts.exclude)
        (walkRoot d) hnodup hroot hgood e he a' e' he' ha' hcon
      rw [hf] at hfe
      cases hfe
    have hnotarget2 : ∀ a' ∈ l2, fileTargetOf outDir a' ≠ some (outDir ++ e.rel) := by
      intro a' ha'mem hcon
      have ha'arch : a' ∈ (walkRoot d).filterMap (archSpec (compileExcludes opts.exclude)) := by
        rw [hsplit]
        exact List.mem_append.mpr (Or.inr (List.mem_cons_of_mem _ ha'mem))
      obtain ⟨e', he', ha'⟩ := List.mem_filterMap.mp ha'arch
      obtain ⟨_, hfe, _⟩ := fileTarget_hits outDir (compileExcludes opts.exclude)
        (walkRoot d) hnodup hroot hgood e he a' e' he' ha' hcon
      rw [hf] at hfe
      cases hfe
    have hpne : outDir ++ e.rel ≠ outDir := by
      intro hc
      apply hner
      have : outDir ++ e.rel = outDir ++ [] := by rw [hc]; simp
      exact append_same_cancel this
    have hnf0 : NoFileAt fs0 (outDir ++ e.rel) := by
      intro c m hc
      rw [hempty (outDir ++ e.rel) (List.prefix_append outDir e.rel) hpne] at hc
      cases hc
    have hnf1 : NoFileAt (uncompressCompute outDir l1 fs0) (outDir ++ e.rel) :=
      uncompress_noFile_preserve outDir l1 fs0 (outDir ++ e.rel) hnf0 hnotarget1
    have hnf1' : NoFileAt (uncompressCompute outDir l1 fs0)
        (outDir ++ resolveRel (compsOf (e.rel ++ [""]))) := by
      rw [hcomp, hres]
      exact hnf1
    obtain ⟨m0, hm0⟩ := extractEntry_dir_sets outDir (uncompressCompute outDir l1 fs0)
      ⟨e.rel ++ [""], true, [], e.mode⟩ (e.rel ++ [""]) henc hslash hnf1'
    rw [hcomp, hres] at hm0
    obtain ⟨n', hn', hcore⟩ := uncompress_core_preserve outDir l2 _ (outDir ++ e.rel)
      (Node.dirNode m0) hm0 hnotarget2
    obtain ⟨mm, hmm⟩ := dir_of_core n' none (by rw [hcore]; rfl)
    exact ⟨mm, by rw [hn', hmm]⟩

/-! ## Count bookkeeping -/

theorem filter_archSpec_count (pats : List Pattern) :
    ∀ ws : List WalkEntry,
    (((ws.filterMap (archSpec pats)).filter (fun a => a.isDir = false)).length) =
      (ws.filter (countsAsFile pats)).length := by
  intro ws
  induction ws with
  | nil => rfl
  | cons e t ih =>
      by_cases hex : excludedBy pats (pathChars e.rel) = true
      · have h1 : archSpec pats e = none := by rw [archSpec, if_pos hex]
        have h2 : countsAsFile pats e = false := by rw [countsAsFile, hex]; rfl
        rw [List.filterMap_cons_none h1]
        simp only [List.filter_cons, h2]
        simpa using ih
      · by_cases hf : e.isFile = true
        · have h1 : archSpec pats e = some ⟨e.rel, false, e.content, e.mode⟩ := by
            rw [archSpec, if_neg (by simp [hex]), if_pos hf]
          have h2 : countsAsFile pats e = true := by
            rw [countsAsFile, hf]
            simp [hex]
          rw [List.filterMap_cons_some h1]
          simp only [List.filter_cons, h2]
          simpa using ih
        · have h2 : countsAsFile pats e = false := by
            rw [countsAsFile]
            simp [hf]
          by_cases hne : pathChars e.rel ≠ []
          · have h1 : archSpec pats e = some ⟨e.rel ++ [""], true, [], e.mode⟩ := by
              rw [archSpec, if_neg (by simp [hex]), if_neg hf, if_pos hne]
            rw [List.filterMap_cons_some h1]
            simp only [List.filter_cons, h2]
            simpa using ih
          · have h1 : archSpec pats e = none := by
              rw [archSpec, if_neg (by simp [hex]), if_neg hf, if_neg hne]
            rw [List.filterMap_cons_none h1]
            simp only [List.filter_cons, h2]
            simpa using ih

/-! ## The claims -/

/-- C1: extraction never writes outside the output directory, and entries
whose stored name `enclosed_name` rejects are silently skipped while the rest
of the archive is still processed.  Part one: provided the proper ancestors
of `outDir` exist (the caller-designated location), every path that is not
under `outDir` is left with exactly the node it had before (so nothing
outside `outDir` is created, overwritten, or altered).  Part two: a rejected
entry leaves the state untouched and extraction continues with the remaining
entries; no error is raised (extraction is total in the model). -/
theorem c1_zip_slip_defense :
    (∀ (outDir : List String) (archive : List ArchiveEntry) (fs : FS),
      (∀ q, q <+: outDir → q ≠ outDir → lookupFS q fs ≠ none) →
      ∀ p, ¬outDir <+: p →
        lookupFS p (uncompressCompute outDir archive fs) = lookupFS p fs) ∧
    (∀ (outDir : List String) (a : ArchiveEntry) (rest : List ArchiveEntry) (fs : FS),
      enclosedName a.segs = none →
      uncompressCompute outDir (a :: rest) fs = uncompressCompute outDir rest fs) := by
  constructor
  · intro outDir archive fs hinv p hp
    exact uncompress_outside outDir archive fs hinv p hp
  · intro outDir a rest fs henc
    rw [uncompressCompute, List.foldl_cons, extractEntry_skip _ _ _ henc]
    rfl

/-- Witness for C1: the spec's `../../evil` archive extracts into `out`
without error, leaves the location `evil` untouched, and in fact changes
nothing at all. -/
theorem c1_witness :
    lookupFS ["evil"] (uncompressCompute ["out"] evilArchive demoFS) =
      lookupFS ["evil"] demoFS ∧
    uncompressCompute ["out"] evilArchive demoFS = demoFS := by
  constructor
  · apply c1_zip_slip_defense.1 ["out"] evilArchive demoFS
    · intro q hq hne
      obtain ⟨t, ht⟩ := hq
      cases q with
      | nil => simp [demoFS, lookupFS]
      | cons x xs =>
          injection ht with h1 h2
          have hxs : xs = [] := by
            cases hxs : xs with
            | nil => rfl
            | cons y ys => rw [hxs] at h2; cases h2
          rw [h1, hxs] at hne
          exact absurd rfl hne
    · rintro ⟨t, ht⟩
      injection ht with h1 h2
      exact absurd h1 (by decide)
  · exact (c1_zip_slip_defense.2 ["out"] ⟨["..", "..", "evil"], false, [7], none⟩ [] demoFS
      (by decide)).trans rfl

/-- C2: packing a well-formed source tree and unpacking the produced archive
into an empty output location reproduces, for every walk entry that no
exclusion pattern matches, the entry's relative path with its exact byte
content (files), and recreates directory entries — even empty ones — as
directories.  `wfDir` states that the source is a real filesystem snapshot
(sibling names distinct, names free of `/`, NUL, `.`, `..`); the second
hypothesis states that nothing exists strictly below `outDir` beforehand. -/
theorem c2_roundtrip (d : FSDir) (opts : ZipOptions) (outDir : List String) (fs0 : FS)
    (hwf : wfDir d = true)
    (hempty : ∀ q, outDir <+: q → q ≠ outDir → lookupFS q fs0 = none) :
    ∀ e ∈ walkRoot d,
      excludedBy (compileExcludes opts.exclude) (pathChars e.rel) = false →
      (e.isFile = true →
        ∃ mm, lookupFS (outDir ++ e.rel)
          (uncompressCompute outDir (compressCompute ((walkRoot d).map some) opts).1 fs0) =
          some (Node.fileNode e.content mm)) ∧
      (e.isFile = false → e.rel ≠ [] →
        ∃ mm, lookupFS (outDir ++ e.rel)
          (uncompressCompute outDir (compressCompute ((walkRoot d).map some) opts).1 fs0) =
          some (Node.dirNode mm)) :=
  roundtrip_main d opts outDir fs0 hwf hempty

/-- Witness for C2: round-tripping a tree holding the file `a.txt` (bytes
`[7]`) and the empty directory `sub` into `out` on a filesystem where only
the root exists reproduces both: the file with its exact content, and the
empty directory as a directory. -/
theorem c2_witness :
    (∃ mm, lookupFS ["out", "a.txt"]
        (uncompressCompute ["out"]
          (compressCompute ((walkRoot treeRound).map some) ⟨some 1, none⟩).1 demoFS) =
        some (Node.fileNode [7] mm)) ∧
    (∃ mm, lookupFS ["out", "sub"]
        (uncompressCompute ["out"]
          (compressCompute ((walkRoot treeRound).map some) ⟨some 1, none⟩).1 demoFS) =
        some (Node.dirNode mm)) := by
  have hempty : ∀ q, ["out"] <+: q → q ≠ ["out"] → lookupFS q demoFS = none := by
    intro q hq hne
    obtain ⟨t, ht⟩ := hq
    rw [← ht]
    simp [demoFS, lookupFS]
  constructor
  · exact (c2_roundtrip treeRound ⟨some 1, none⟩ ["out"] demoFS (by decide) hempty
      ⟨["a.txt"], true, [7], none⟩ (by decide) (by decide)).1 rfl
  · exact (c2_roundtrip treeRound ⟨some 1, none⟩ ["out"] demoFS (by decide) hempty
      ⟨["sub"], false, [], none⟩ (by decide) (by decide)).2 rfl (by decide)

/-- C3: the `zip` entry point validates the resolved compression level before
constructing the task, so `File::create(output_path)` — the first filesystem
action of the task — never runs for a level outside `[0, 9]` (the boolean of
`zipPipeline` records whether it ran, i.e. whether a file appears at
`outputPath`), and every level `0..9` passes validation; in particular
levels `10` and `-1` are rejected with the validation error. -/
theorem c3_level_validation (lvl : Int) (ex : Option (List String))
    (walkResults : List (Option WalkEntry)) :
    ((zipPipeline walkResults (some ⟨some lvl, ex⟩)).2 = true ↔ (0 ≤ lvl ∧ lvl ≤ 9)) ∧
    ((zipPipeline walkResults (some ⟨some lvl, ex⟩)).1.isOk = true ↔ (0 ≤ lvl ∧ lvl ≤ 9)) ∧
    zipPipeline walkResults (some ⟨some 10, ex⟩) =
      (.error "Compression level must be between 0 and 9", false) ∧
    zipPipeline walkResults (some ⟨some (-1), ex⟩) =
      (.error "Compression level must be between 0 and 9", false) := by
  refine ⟨?_, ?_, ?_, ?_⟩
  · by_cases h : 0 ≤ lvl ∧ lvl ≤ 9 <;> simp [zipPipeline, h]
  · by_cases h : 0 ≤ lvl ∧ lvl ≤ 9 <;> simp [zipPipeline, h, Except.isOk, Except.toBool]
  · rw [zipPipeline]
    norm_num
  · rw [zipPipeline]
    norm_num

/-- C4 counterexample: with a missing (or unreadable) source root, `walkdir`
yields a single error item, `filter_map(|e| e.ok())` silently drops it, and
the operation SUCCEEDS with file count `0` after creating the output file —
it does not fail with a traversal error as the claim states. -/
theorem c4_counterexample :
    zipPipeline (walkOf none) (some ⟨some 1, none⟩) = (.ok ([], 0), true) := rfl

/-- C4 amended: if the source root is missing or unreadable, the walk yields
only an error entry, which the compress loop silently drops; for any
(valid-level) options the operation succeeds, returns file count `0`, and the
output file has been created. -/
theorem c4_amended_missing_root (ex : Option (List String)) :
    zipPipeline (walkOf none) (some ⟨some 1, ex⟩) = (.ok ([], 0), true) := rfl

/-- C5: on success the returned count is exactly the number of file entries
written to the container (directory markers are not counted): in general the
count equals the number of non-directory entries of the produced archive, and
packing the fixture with 3 files and 2 subdirectories returns 3. -/
theorem c5_count_semantics :
    (∀ (walkResults : List (Option WalkEntry)) (opts : ZipOptions),
      (compressCompute walkResults opts).2 =
        ((compressCompute walkResults opts).1.filter (fun a => a.isDir = false)).length) ∧
    (compressCompute ((walkRoot treeThreeTwo).map some) ⟨some 1, none⟩).2 = 3 := by
  constructor
  · intro w opts
    rw [compressCompute_spec]
    exact (filter_archSpec_count (compileExcludes opts.exclude) (w.filterMap id)).symm
  · decide

/-- C6: exclusion is decided per normalized relative path: the produced
archive and count are exactly a per-entry filter of the walk (the
characterization), an entry whose relative name matches some compiled
pattern contributes nothing to the archive nor to the count, and exclusion is
not short-circuited at directories: with pattern `d`, the directory `d` is
dropped but its descendant `d/f` is still archived.  The `*.tmp` fixture
yields an archive holding only `a.txt` with count 1. -/
theorem c6_exclusion :
    (∀ (walkResults : List (Option WalkEntry)) (opts : ZipOptions),
      compressCompute walkResults opts =
        ((walkResults.filterMap id).filterMap (archSpec (compileExcludes opts.exclude)),
         ((walkResults.filterMap id).filter
           (countsAsFile (compileExcludes opts.exclude))).length)) ∧
    (∀ (pats : List Pattern) (e : WalkEntry),
      excludedBy pats (pathChars e.rel) = true →
      archSpec pats e = none ∧ countsAsFile pats e = false) ∧
    compressCompute ((walkRoot treeTmp).map some) ⟨some 1, some ["*.tmp"]⟩ =
      ([⟨["a.txt"], false, [2], none⟩], 1) ∧
    compressCompute ((walkRoot treeNested).map some) ⟨some 1, some ["d"]⟩ =
      ([⟨["d", "f"], false, [5], none⟩], 1) := by
  refine ⟨compressCompute_spec, ?_, by decide, by decide⟩
  intro pats e h
  constructor
  · rw [archSpec, if_pos h]
  · rw [countsAsFile, h]
    rfl

/-- Witness for C6: the excluded `a.tmp` walk entry is mapped to no archive
entry and does not count as a file. -/
theorem c6_witness :
    archSpec (compileExcludes (some ["*.tmp"])) ⟨["a.tmp"], true, [1], none⟩ = none ∧
    countsAsFile (compileExcludes (some ["*.tmp"])) ⟨["a.tmp"], true, [1], none⟩ = false :=
  c6_exclusion.2.1 (compileExcludes (some ["*.tmp"])) ⟨["a.tmp"], true, [1], none⟩ (by decide)

/-- C7: exclusion strings that fail to compile are silently dropped: the
operation's success is unaffected by the exclusion list (it depends only on
the level), any exclusion that does happen is caused by a pattern that
compiled successfully, and the invalid pattern `***` compiles to nothing. -/
theorem c7_invalid_patterns_dropped :
    (∀ (walkResults : List (Option WalkEntry)) (lvl : Int) (ex : List String),
      ((zipPipeline walkResults (some ⟨some lvl, some ex⟩)).1.isOk = true ↔
        (0 ≤ lvl ∧ lvl ≤ 9))) ∧
    (∀ (ex : List String) (name : List Char),
      excludedBy (compileExcludes (some ex)) name = true →
      ∃ s ∈ ex, ∃ p, Pattern.new s = some p ∧ p.matches name = true) ∧
    compileExcludes (some ["***"]) = [] := by
  refine ⟨?_, ?_, by decide⟩
  · intro w lvl ex
    by_cases h : 0 ≤ lvl ∧ lvl ≤ 9 <;> simp [zipPipeline, h, Except.isOk, Except.toBool]
  · intro ex name h
    rw [excludedBy, List.any_eq_true] at h
    obtain ⟨p, hp, hm⟩ := h
    simp only [compileExcludes, Option.map_some', Option.getD_some] at hp
    obtain ⟨s, hs, hnew⟩ := List.mem_filterMap.mp hp
    exact ⟨s, hs, p, hnew, hm⟩

/-- Witness for C7: with the list `["***", "*.tmp"]` (an invalid and a valid
pattern), the exclusion of `a.tmp` is caused by the valid pattern. -/
theorem c7_witness :
    ∃ s ∈ (["***", "*.tmp"] : List String), ∃ p, Pattern.new s = some p ∧
      p.matches "a.tmp".data = true :=
  c7_invalid_patterns_dropped.2.1 ["***", "*.tmp"] "a.tmp".data (by decide)

/-- C8: the traversal root (empty relative name) is never added to the
archive, and every non-excluded directory with a non-empty relative name is
added as a trailing-slash directory marker carrying its permission mode:
every such walk directory produces its marker entry, and conversely every
directory entry of the archive comes from a walk directory with a non-empty
name (so never from the root). -/
theorem c8_directory_markers (walkResults : List (Option WalkEntry)) (opts : ZipOptions) :
    (∀ e ∈ walkResults.filterMap id, e.isFile = false →
      excludedBy (compileExcludes opts.exclude) (pathChars e.rel) = false →
      pathChars e.rel ≠ [] →
      (⟨e.rel ++ [""], true, [], e.mode⟩ : ArchiveEntry) ∈
        (compressCompute walkResults opts).1) ∧
    (∀ a ∈ (compressCompute walkResults opts).1, a.isDir = true →
      ∃ e ∈ walkResults.filterMap id, e.isFile = false ∧ pathChars e.rel ≠ [] ∧
        a = ⟨e.rel ++ [""], true, [], e.mode⟩) := by
  constructor
  · intro e he hf hex hne
    rw [compressCompute_spec]
    exact List.mem_filterMap.mpr ⟨e, he,
      by rw [archSpec, if_neg (by simp [hex]), if_neg (by simp [hf]), if_pos hne]⟩
  · intro a ha hdir
    rw [compressCompute_spec] at ha
    obtain ⟨e, he, hspec⟩ := List.mem_filterMap.mp ha
    obtain ⟨hex, hsh⟩ := archSpec_cases _ e a hspec
    rcases hsh with ⟨hf, haeq⟩ | ⟨hf, hpc, haeq⟩
    · rw [haeq] at hdir
      cases hdir
    · exact ⟨e, he, hf, hpc, haeq⟩

/-- Witness for C8: the subdirectory `sub1` of the fixture is archived as the
directory marker `sub1/`. -/
theorem c8_witness :
    (⟨["sub1", ""], true, [], none⟩ : ArchiveEntry) ∈
      (compressCompute ((walkRoot treeThreeTwo).map some) ⟨some 1, none⟩).1 :=
  (c8_directory_markers ((walkRoot treeThreeTwo).map some) ⟨some 1, none⟩).1
    ⟨["sub1"], false, [], none⟩ (by decide) rfl (by decide) (by decide)

/-- C9: the reusable 64 KiB read buffer cannot leak stale bytes: the
streaming copy emits exactly the concatenation of the chunks read, whatever
the buffer held beforehand, and consequently every file entry of a produced
archive stores exactly the byte content of the walked source file. -/
theorem c9_buffer_reuse_safe :
    (∀ (buf : List Nat) (cks : List (List Nat)), (streamChunks buf cks).1 = cks.flatten) ∧
    (∀ (walkResults : List (Option WalkEntry)) (opts : ZipOptions) (a : ArchiveEntry),
      a ∈ (compressCompute walkResults opts).1 → a.isDir = false →
      ∃ e ∈ walkResults.filterMap id, e.isFile = true ∧ a.segs = e.rel ∧
        a.content = e.content) := by
  constructor
  · exact streamChunks_fst
  · intro w opts a ha hdir
    rw [compressCompute_spec] at ha
    obtain ⟨e, he, hspec⟩ := List.mem_filterMap.mp ha
    obtain ⟨hex, hsh⟩ := archSpec_cases _ e a hspec
    rcases hsh with ⟨hf, haeq⟩ | ⟨hf, hpc, haeq⟩
    · exact ⟨e, he, hf, by rw [haeq], by rw [haeq]⟩
    · rw [haeq] at hdir
      cases hdir

/-- Witness for C9: in the fixture where `big` (bytes `[1,2,3]`) is streamed
before `tiny` (byte `[9]`), the archived `tiny` entry holds exactly `[9]` —
not the stale `[9,2,3]` that a buffer-reuse bug would produce. -/
theorem c9_witness :
    ∃ e ∈ ((walkRoot treeStale).map some).filterMap id, e.isFile = true ∧
      (["tiny"] : List String) = e.rel ∧ ([9] : List Nat) = e.content :=
  c9_buffer_reuse_safe.2 ((walkRoot treeStale).map some) ⟨some 1, none⟩
    ⟨["tiny"], false, [9], none⟩ (by decide) rfl

/-- C10: extracting an archive with zero entries succeeds (the loop over
`0..archive.len()` has no iterations) and leaves the filesystem state
entirely unchanged; in particular `outputDir` itself is not created —
directories are created only as required by individual entries. -/
theorem c10_empty_archive_noop (outDir : List String) (fs : FS) :
    uncompressCompute outDir [] fs = fs ∧
    lookupFS outDir (uncompressCompute outDir [] fs) = lookupFS outDir fs :=
  ⟨rfl, rfl⟩
